import Mathlib

/-!
# Verification of the XL erasure-coded object storage engine

A shallow embedding, in Lean 4, of the core algorithms of the minio XL
object layer: erasure read quorum logic (`erasure-readfile.go`), quorum
selection and disk validation (`xl-v1.go`, `xl-erasure-v1.go`), block
length and data-block extraction (`xl-erasure-v1-utils.go`), the ordered
tree walker (`xl-v1-list-objects.go` / tree-walk), and the tree-walker
pool.

Go strings are byte sequences compared bytewise; they are modelled as
`List Nat`.  Go `nil`-able byte slices are modelled as `Option Bytes`.
Fallible operations return `Option`/`Except`; a Go panic (out-of-range
slice index) is modelled as `none`.  Machine integers in this code are
small (disk counts ≤ 16, block sizes ≤ 10 MiB), far from any `int64`
overflow, so they are modelled as `Nat`/`Int` directly.
-/

/-- A byte string (Go `string` / `[]byte` is a byte sequence). -/
abbrev Str := List Nat

/-- Shard/block contents (`[]byte`). -/
abbrev Bytes := List Nat

/-- The error values of the engine that the embedded code can return
(`errors.go`, `xl-v1-errors.go`).  `errDecodeFailed` stands for an error
returned by the reedsolomon library itself, and `errVerificationFailed`
for the `errors.New("Verification failed after reconstruction, ...")`
value created in `decodeData`. -/
inductive Err where
  | errXLMaxDisks
  | errXLMinDisks
  | errXLNumDisks
  | errXLReadQuorum
  | errWriteQuorum
  | errInvalidArgument
  | errUnexpected
  | errDiskNotFound
  | errFaultyDisk
  | errDecodeFailed
  | errVerificationFailed
  deriving DecidableEq, Repr

/-! ## Disk-count validation (`xl-v1.go`, `checkSufficientDisks`) -/

/-- Maximum erasure blocks (`maxErasureBlocks = 16`). -/
def maxErasureBlocks : Nat := 16

/-- Minimum erasure blocks (`minErasureBlocks = 6`). -/
def minErasureBlocks : Nat := 6

/-- `checkSufficientDisks` — validate if input disks are sufficient for
initializing XL.  Mirrors the checks of `xl-v1.go` in order: more than
`maxErasureBlocks` disks, fewer than `minErasureBlocks`, odd count. -/
def checkSufficientDisks (disks : List Str) : Option Err :=
  let totalDisks := disks.length
  if totalDisks > maxErasureBlocks then some .errXLMaxDisks
  else if totalDisks < minErasureBlocks then some .errXLMinDisks
  else if ¬ (totalDisks % 2 == 0) then some .errXLNumDisks
  else none

/-! ## Quorum computation (`xl-v1.go` `newXLObjects`, `xl-erasure-v1.go` `newXL`) -/

/-- The (readQuorum, writeQuorum) pair computed by `newXLObjects` in
`xl-v1.go`: both are `len(xl.storageDisks)/2 + 1`. -/
def newXLObjectsQuorums (storageDisks : Nat) : Nat × Nat :=
  (storageDisks / 2 + 1, storageDisks / 2 + 1)

/-- The (readQuorum, writeQuorum) pair computed by `newXL` in
`xl-erasure-v1.go`: readQuorum is `len/2 + 1`, writeQuorum is
`len/2 + 3` capped at `len`. -/
def newXLQuorums (storageDisks : Nat) : Nat × Nat :=
  let readQuorum := storageDisks / 2 + 1
  let writeQuorum := storageDisks / 2 + 3
  (readQuorum, if writeQuorum > storageDisks then storageDisks else writeQuorum)

/-! ## Random listing disk choice (`xl-erasure-v1.go`, `XL.ListDir`) -/

/-- Models the contract of `math/rand.Intn k` for `k > 0`: some value in
`[0, k)`, here concretely `seed % k` for an arbitrary draw `seed`. -/
def randIntnModel (k seed : Nat) : Nat := seed % k

/-- The random disk index drawn on one attempt of `XL.ListDir`:
`rand.Intn(len(xl.storageDisks) - 1)`. -/
def xlListDirRandIndex (storageDisks : Nat) (seed : Nat) : Nat :=
  randIntnModel (storageDisks - 1) seed

/-- The indices attempted by the `XL.ListDir` retry loop: the loop body
runs at most `len(xl.storageDisks)` times (`listErrCount` increments on
each failure), each attempt drawing `rand.Intn(len - 1)` afresh. -/
def xlListDirAttemptIndices (storageDisks : Nat) (seeds : Nat → Nat) : List Nat :=
  (List.range storageDisks).map (fun t => xlListDirRandIndex storageDisks (seeds t))

/-! ## Encoded block length and data extraction (`xl-erasure-v1-utils.go`) -/

/-- `getEncodedBlockLen` — calculate the blockSize based on input length
and total number of data blocks: `(inputLen + dataBlocks - 1) / dataBlocks`. -/
def getEncodedBlockLen (inputLen : Nat) (dataBlocks : Nat) : Nat :=
  (inputLen + dataBlocks - 1) / dataBlocks

/-- `getDataBlocks` — fetches the data block only part of the input
encoded blocks: appends `enBlocks[:dataBlocks]` and reslices to
`curBlockSize` bytes.  The two Go slice expressions panic when out of
range; a panic is modelled as `none`. -/
def getDataBlocks (enBlocks : List Bytes) (dataBlocks : Nat) (curBlockSize : Nat) :
    Option Bytes :=
  if enBlocks.length < dataBlocks then none
  else
    let data := (enBlocks.take dataBlocks).foldl (fun acc block => acc ++ block) []
    if data.length < curBlockSize then none
    else some (data.take curBlockSize)

/-! ## Theorems for disk validation, quorums, listing index, block length -/

/-- C7: `checkSufficientDisks` returns `nil` iff the number of disks is
even and between 6 and 16 inclusive; otherwise it fails with the
distinct error for the failing condition: `errXLMaxDisks` for more than
16 disks, `errXLMinDisks` for fewer than 6, and `errXLNumDisks` for an
odd count inside the admissible range. -/
theorem checkSufficientDisks_spec (disks : List Str) :
    (checkSufficientDisks disks = none ↔
      disks.length % 2 = 0 ∧ 6 ≤ disks.length ∧ disks.length ≤ 16)
    ∧ (checkSufficientDisks disks = some .errXLMaxDisks ↔ 16 < disks.length)
    ∧ (checkSufficientDisks disks = some .errXLMinDisks ↔ disks.length < 6)
    ∧ (checkSufficientDisks disks = some .errXLNumDisks ↔
        6 ≤ disks.length ∧ disks.length ≤ 16 ∧ disks.length % 2 = 1) := by
  simp only [checkSufficientDisks, maxErasureBlocks, minErasureBlocks]
  split_ifs with h1 h2 h3
  all_goals simp_all
  all_goals omega

/-- C4 (counterexample): the claim "both the read quorum and the write
quorum are set to N/2 + 1 for every engine" fails at N = 6 for the `XL`
layer built by `newXL`, whose write quorum is `min(N/2 + 3, N) = 6`,
not `N/2 + 1 = 4`. -/
theorem newXL_writeQuorum_counterexample :
    (newXLQuorums 6).2 = 6 ∧ 6 / 2 + 1 = 4 ∧ (newXLQuorums 6).2 ≠ 6 / 2 + 1 := by
  decide

/-- C4 (amended): for every valid disk count N (even, 6 ≤ N ≤ 16),
`newXLObjects` sets read and write quorum both to N/2 + 1, while `newXL`
sets read quorum to N/2 + 1 but write quorum to N/2 + 3 capped at N
(which, in this range, is N/2 + 3 and differs from N/2 + 1). -/
theorem engineQuorums_spec (n : Nat) (h6 : 6 ≤ n) (h16 : n ≤ 16) (heven : n % 2 = 0) :
    newXLObjectsQuorums n = (n / 2 + 1, n / 2 + 1)
    ∧ (newXLQuorums n).1 = n / 2 + 1
    ∧ (newXLQuorums n).2 = n / 2 + 3
    ∧ (newXLQuorums n).2 ≠ n / 2 + 1 := by
  unfold newXLObjectsQuorums newXLQuorums
  refine ⟨rfl, rfl, ?_, ?_⟩ <;> simp only [] <;> split_ifs with h <;> omega

/-- C4 (witness at N = 8). -/
theorem engineQuorums_spec_witness :
    newXLObjectsQuorums 8 = (8 / 2 + 1, 8 / 2 + 1)
    ∧ (newXLQuorums 8).1 = 8 / 2 + 1
    ∧ (newXLQuorums 8).2 = 8 / 2 + 3
    ∧ (newXLQuorums 8).2 ≠ 8 / 2 + 1 :=
  engineQuorums_spec 8 (by decide) (by decide) (by decide)

/-- C9: in `XL.ListDir` over `n ≥ 2` storage disks, every attempt draws
its disk index with `rand.Intn(n - 1)`, so the drawn index is always
strictly below `n - 1`: the disk at index `n - 1` is never selected,
whatever the sequence of random draws. -/
theorem xlListDir_never_picks_last (n : Nat) (seeds : Nat → Nat) (hn : 2 ≤ n) :
    ∀ i ∈ xlListDirAttemptIndices n seeds, i < n - 1 := by
  intro i hi
  simp only [xlListDirAttemptIndices, xlListDirRandIndex, randIntnModel,
    List.mem_map, List.mem_range] at hi
  obtain ⟨t, -, rfl⟩ := hi
  exact Nat.mod_lt _ (by omega)

/-- C9 (witness at n = 6 with a concrete draw sequence). -/
theorem xlListDir_never_picks_last_witness :
    (xlListDirAttemptIndices 6 (fun t => 7 * t + 3)).all
      (fun i => decide (i < 6 - 1)) = true := by
  have h := xlListDir_never_picks_last 6 (fun t => 7 * t + 3) (by decide)
  rw [List.all_eq_true]
  intro i hi
  simpa using h i hi

/-- Concatenation of the first `dataBlocks` shards, as a plain function
of the input (used to state what `getDataBlocks` returns). -/
def dataConcat (enBlocks : List Bytes) (dataBlocks : Nat) : Bytes :=
  (enBlocks.take dataBlocks).flatten

theorem foldl_append_eq_flatten (l : List Bytes) (init : Bytes) :
    l.foldl (fun acc block => acc ++ block) init = init ++ l.flatten := by
  induction l generalizing init with
  | nil => simp
  | cons b rest ih => simp [ih, List.append_assoc]

/-- C5: `getEncodedBlockLen L D` is exactly `⌈L / D⌉` — it is the least
`k` with `L ≤ D * k` — and for every shard vector with at least `D`
entries whose first `D` entries concatenate to at least `L` bytes,
`getDataBlocks` returns exactly the first `L` bytes of that
concatenation (the block with its zero padding removed). -/
theorem getEncodedBlockLen_getDataBlocks_spec (D : Nat) (hD : 1 ≤ D) :
    (∀ L : Nat, L ≤ D * getEncodedBlockLen L D
        ∧ ∀ k : Nat, L ≤ D * k → getEncodedBlockLen L D ≤ k)
    ∧ (∀ (enBlocks : List Bytes) (L : Nat), D ≤ enBlocks.length →
        L ≤ (dataConcat enBlocks D).length →
        getDataBlocks enBlocks D L = some ((dataConcat enBlocks D).take L)) := by
  constructor
  · intro L
    have hD' : 0 < D := hD
    constructor
    · have h := Nat.div_add_mod (L + D - 1) D
      have hr : (L + D - 1) % D < D := Nat.mod_lt _ hD'
      unfold getEncodedBlockLen
      omega
    · intro k hk
      unfold getEncodedBlockLen
      have h1 : L + D - 1 < (k + 1) * D := by
        have : (k + 1) * D = D * k + D := by ring
        omega
      have h2 := (Nat.div_lt_iff_lt_mul hD').mpr h1
      omega
  · intro enBlocks L hlen hL
    unfold getDataBlocks
    rw [if_neg (by omega)]
    simp only [foldl_append_eq_flatten, List.nil_append]
    rw [if_neg]
    · rfl
    · unfold dataConcat at hL
      omega

/-- C5 (witness): two data shards of three bytes each, block length 5. -/
theorem getEncodedBlockLen_getDataBlocks_spec_witness :
    5 ≤ 2 * getEncodedBlockLen 5 2
    ∧ getDataBlocks [[10, 11, 12], [13, 14, 0], [7, 7, 7], [8, 8, 8]] 2 5
        = some ((dataConcat [[10, 11, 12], [13, 14, 0], [7, 7, 7], [8, 8, 8]] 2).take 5) := by
  have h := getEncodedBlockLen_getDataBlocks_spec 2 (by decide)
  exact ⟨(h.1 5).1, h.2 [[10, 11, 12], [13, 14, 0], [7, 7, 7], [8, 8, 8]] 5
    (by decide) (by decide)⟩

/-! ## `XL.RenameFile` (`xl-erasure-v1.go`) -/

/-- The final value of the per-disk error slot `errs[index]` computed by
the `XL.RenameFile` goroutine body.  The body runs
`err := disk.RenameFile(...)`, then `if err != nil { errs[index] = err }`,
and then — unconditionally, with no `else` — `errs[index] = nil`.  The
last write always stores `nil`, whatever the rename outcome was. -/
def renameFileErrSlot (diskResult : Option Err) : Option Err :=
  let _slot := if diskResult.isSome then diskResult else none
  none

/-- Result of `XL.RenameFile`: whether the destination cleanup
(`xl.deleteXLFiles(dstVolume, dstPath)`) ran, and the returned error. -/
structure RenameOutcome where
  cleanedUp : Bool
  result : Option Err
  deriving DecidableEq, Repr

/-- `XL.RenameFile` — validates arguments, fans the rename out to every
storage disk (each goroutine filling its `errs` slot via
`renameFileErrSlot`), counts the non-nil errors, and applies the quorum
branch structure of the source: on `errCount > len - writeQuorum` it
returns nil if `errCount ≤ len - readQuorum`, and otherwise deletes the
destination files and returns `errWriteQuorum`.  `diskResults` are the
per-disk outcomes of `disk.RenameFile` (`none` = success).  Quorum
arithmetic is over `Int`, as in Go. -/
def xlRenameFile (srcVolumeValid srcPathValid dstVolumeValid dstPathValid : Bool)
    (readQuorum writeQuorum : Nat) (diskResults : List (Option Err)) : RenameOutcome :=
  if ¬ srcVolumeValid then ⟨false, some .errInvalidArgument⟩
  else if ¬ srcPathValid then ⟨false, some .errInvalidArgument⟩
  else if ¬ dstVolumeValid then ⟨false, some .errInvalidArgument⟩
  else if ¬ dstPathValid then ⟨false, some .errInvalidArgument⟩
  else
    let errs := diskResults.map renameFileErrSlot
    let errCount := (errs.filter Option.isSome).length
    if (errCount : Int) > (diskResults.length : Int) - (writeQuorum : Int) then
      if (errCount : Int) ≤ (diskResults.length : Int) - (readQuorum : Int) then
        ⟨false, none⟩
      else ⟨true, some .errWriteQuorum⟩
    else ⟨false, none⟩

/-- C3 (counterexample): six disks with the `newXL` quorums for N = 6
(readQuorum 4, writeQuorum 6) and every per-disk rename failing.  The
failure count (6) exceeds N − writeQuorum = 0, yet `XL.RenameFile`
performs no cleanup and returns nil — the claim's demanded
cleanup-plus-`errWriteQuorum` does not happen. -/
theorem xlRenameFile_counterexample :
    (((List.replicate 6 (some Err.errDiskNotFound)).filter Option.isSome).length : Int)
        > ((List.replicate 6 (some Err.errDiskNotFound)).length : Int)
          - ((newXLQuorums 6).2 : Int)
    ∧ xlRenameFile true true true true (newXLQuorums 6).1 (newXLQuorums 6).2
        (List.replicate 6 (some Err.errDiskNotFound))
      = ⟨false, none⟩ := by
  decide

theorem renameFileErrs_filter_nil (diskResults : List (Option Err)) :
    (diskResults.map renameFileErrSlot).filter Option.isSome = [] := by
  induction diskResults with
  | nil => rfl
  | cons d rest ih => simp [renameFileErrSlot, ih]

/-- C3 (amended): because every `errs` slot is unconditionally reset to
nil after the per-disk rename, the computed failure count is always
zero; hence for valid arguments and a write quorum not exceeding the
disk count (which `newXL` guarantees by capping), `XL.RenameFile`
returns nil and never deletes the destination files, regardless of the
per-disk rename outcomes. -/
theorem xlRenameFile_always_nil (readQuorum writeQuorum : Nat)
    (diskResults : List (Option Err))
    (hwq : writeQuorum ≤ diskResults.length) :
    xlRenameFile true true true true readQuorum writeQuorum diskResults
      = ⟨false, none⟩ := by
  have h0 : ¬ ((0 : Int) > (diskResults.length : Int) - (writeQuorum : Int)) := by
    omega
  simp [xlRenameFile, renameFileErrs_filter_nil, h0]

/-- C3 (witness for the amended claim): six failing disks, quorums 4/6. -/
theorem xlRenameFile_always_nil_witness :
    xlRenameFile true true true true 4 6 (List.replicate 6 (some Err.errFaultyDisk))
      = ⟨false, none⟩ :=
  xlRenameFile_always_nil 4 6 (List.replicate 6 (some Err.errFaultyDisk)) (by decide)

/-! ## `xlObjects.StorageInfo` (`xl-v1.go`) -/

/-- `disk.Info` — Total and Free for one physical disk. -/
structure DiskInfo where
  total : Int
  free : Int
  deriving DecidableEq, Repr

/-- The comparator underlying `byDiskTotal` (`Less(i,j) = d[i].Total <
d[j].Total`), as the non-strict merge comparator used to model
`sort.Sort` (which produces a permutation ascending in `Total`). -/
def byDiskTotalLe (a b : DiskInfo) : Bool := a.total ≤ b.total

/-- `xlObjects.StorageInfo` — collects `disk.GetInfo` results over the
physical disks (failures skipped by `continue`), sorts ascending by
`Total`, and returns `disksInfo[0].Total/Free` each multiplied by the
storage-disk count.  When every `GetInfo` fails, `disksInfo` is empty
and `disksInfo[0]` panics (index out of range) — modelled as `none`. -/
def xlStorageInfo (getInfoResults : List (Option DiskInfo)) (storageDisks : Nat) :
    Option (Int × Int) :=
  let disksInfo := getInfoResults.filterMap id
  let sorted := disksInfo.mergeSort byDiskTotalLe
  match sorted with
  | [] => none
  | d :: _ => some (d.total * storageDisks, d.free * storageDisks)

/-- C10: `xlObjects.StorageInfo` is total only when at least one
physical disk's `GetInfo` succeeds; in that case it returns the Total
and Free of a reporting disk of minimal Total, each multiplied by the
number of storage disks.  When every `GetInfo` fails, the access
`disksInfo[0]` indexes an empty slice (a panic, modelled `none`). -/
theorem xlStorageInfo_spec (getInfoResults : List (Option DiskInfo)) (n : Nat) :
    ((∃ d ∈ getInfoResults, d.isSome) →
      ∃ info, info ∈ getInfoResults.filterMap id
        ∧ (∀ info' ∈ getInfoResults.filterMap id, info.total ≤ info'.total)
        ∧ xlStorageInfo getInfoResults n = some (info.total * n, info.free * n))
    ∧ ((∀ d ∈ getInfoResults, d = none) → xlStorageInfo getInfoResults n = none) := by
  constructor
  · rintro ⟨d, hd, hsome⟩
    have hmem : ∃ x, x ∈ getInfoResults.filterMap id := by
      obtain ⟨v, rfl⟩ := Option.isSome_iff_exists.mp hsome
      exact ⟨v, List.mem_filterMap.mpr ⟨some v, hd, rfl⟩⟩
    set disksInfo := getInfoResults.filterMap id with hdisks
    have hperm := List.mergeSort_perm disksInfo byDiskTotalLe
    have hsorted : List.Pairwise (fun a b => byDiskTotalLe a b = true)
        (disksInfo.mergeSort byDiskTotalLe) := List.sorted_mergeSort
      (fun a b c hab hbc => by
        simp only [byDiskTotalLe, decide_eq_true_eq] at *; omega)
      (fun a b => by
        simp only [byDiskTotalLe, Bool.or_eq_true, decide_eq_true_eq]; omega)
      disksInfo
    unfold xlStorageInfo
    rw [← hdisks]
    cases hms : disksInfo.mergeSort byDiskTotalLe with
    | nil =>
      exfalso
      obtain ⟨x, hx⟩ := hmem
      have : x ∈ disksInfo.mergeSort byDiskTotalLe := by
        rw [List.mem_mergeSort]; exact hx
      simp [hms] at this
    | cons d0 rest =>
      refine ⟨d0, ?_, ?_, ?_⟩
      · have : d0 ∈ disksInfo.mergeSort byDiskTotalLe := by simp [hms]
        rwa [List.mem_mergeSort] at this
      · intro info' hinfo'
        have : info' ∈ disksInfo.mergeSort byDiskTotalLe := by
          rw [List.mem_mergeSort]; exact hinfo'
        rw [hms] at this
        rcases List.mem_cons.mp this with rfl | hrest
        · exact le_refl _
        · rw [hms] at hsorted
          have := List.rel_of_pairwise_cons hsorted hrest
          simpa [byDiskTotalLe] using this
      · simp [hms]
  · intro hall
    have : getInfoResults.filterMap id = [] := by
      induction getInfoResults with
      | nil => rfl
      | cons d rest ih =>
        have hd := hall d (by simp)
        subst hd
        simpa using ih (fun x hx => hall x (by simp [hx]))
    unfold xlStorageInfo
    rw [this]
    simp [List.mergeSort_nil]

/-- C10 (witness): one failing disk and two reporting disks; the
minimal-Total disk is `⟨4, 9⟩`, and with 6 storage disks the result is
`(24, 54)`; with every disk failing the access is out of range. -/
theorem xlStorageInfo_spec_witness :
    xlStorageInfo [none, some ⟨10, 7⟩, some ⟨4, 9⟩] 6 = some (4 * 6, 9 * 6)
    ∧ xlStorageInfo [none, none] 6 = none := by
  constructor
  · obtain ⟨info, hmem, hmin, heq⟩ :=
      (xlStorageInfo_spec [none, some ⟨10, 7⟩, some ⟨4, 9⟩] 6).1
        ⟨some ⟨10, 7⟩, by simp, rfl⟩
    have hfm : List.filterMap id [none, some (⟨10, 7⟩ : DiskInfo), some ⟨4, 9⟩]
        = [⟨10, 7⟩, ⟨4, 9⟩] := rfl
    rw [hfm] at hmem hmin
    have h4 : info.total ≤ 4 := by
      have := hmin ⟨4, 9⟩ (by simp)
      simpa using this
    have hinfo : info = (⟨4, 9⟩ : DiskInfo) := by
      rcases List.mem_cons.mp hmem with rfl | h2
      · norm_num at h4
      · rcases List.mem_cons.mp h2 with rfl | h3
        · rfl
        · simp at h3
    rw [hinfo] at heq
    exact heq
  · exact (xlStorageInfo_spec [none, none] 6).2 (by decide)

/-! ## Erasure read path (`erasure-readfile.go`) -/

/-- The ordered encoded-block vector `enBlocks`; `none` models a Go nil
slice (block not read). -/
abbrev EnBlocks := List (Option Bytes)

/-- The index-tracking count of non-nil data and parity entries
performed by the loop of `isSuccessDecodeBlocks`: entries at positions
below `dataBlocks` count as data, the rest as parity.  `idx` is the
position of the head of the remaining list. -/
def countSuccessBlocksFrom (enBlocks : EnBlocks) (dataBlocks idx : Nat) : Nat × Nat :=
  match enBlocks with
  | [] => (0, 0)
  | none :: rest => countSuccessBlocksFrom rest dataBlocks (idx + 1)
  | some _ :: rest =>
    let r := countSuccessBlocksFrom rest dataBlocks (idx + 1)
    if idx < dataBlocks then (r.1 + 1, r.2) else (r.1, r.2 + 1)

/-- `isSuccessDecodeBlocks` — do we have all the blocks to be
successfully decoded?  True when all data blocks were read
(`successDataBlocksCount == dataBlocks`) or at least `dataBlocks + 1`
blocks in total were read. -/
def isSuccessDecodeBlocks (enBlocks : EnBlocks) (dataBlocks : Nat) : Bool :=
  let counts := countSuccessBlocksFrom enBlocks dataBlocks 0
  counts.1 == dataBlocks || counts.1 + counts.2 ≥ dataBlocks + 1

/-- `isSuccessDataBlocks` — do we have all the data blocks?  Counts the
non-nil entries of `enBlocks[:dataBlocks]` (the `index < dataBlocks`
guard inside the Go loop is always true on that range; the Go slice
expression requires `dataBlocks ≤ len(enBlocks)`). -/
def isSuccessDataBlocks (enBlocks : EnBlocks) (dataBlocks : Nat) : Bool :=
  ((enBlocks.take dataBlocks).filter Option.isSome).length ≥ dataBlocks

/-- The index-tracking count of non-nil data and parity disks used by
`getReadDisks` over `orderedDisks[:index]` (`true` = disk available). -/
def diskCountsFrom (disks : List Bool) (dataBlocks idx : Nat) : Nat × Nat :=
  match disks with
  | [] => (0, 0)
  | false :: rest => diskCountsFrom rest dataBlocks (idx + 1)
  | true :: rest =>
    let r := diskCountsFrom rest dataBlocks (idx + 1)
    if idx < dataBlocks then (r.1 + 1, r.2) else (r.1, r.2 + 1)

/-- The forward scan of `getReadDisks` from absolute position `i`:
every available disk is added to the `readDisks` mask and counted; the
scan stops successfully once `dataDisks == dataBlocks` or
`dataDisks + parityDisks == dataBlocks + 1`, returning the mask and the
next index `i + 1`; an exhausted list yields `errXLReadQuorum`. -/
def scanReadDisks (remaining : List Bool) (i dataBlocks dataDisks parityDisks : Nat)
    (readDisks : List Bool) : Except Err (List Bool × Nat) :=
  match remaining with
  | [] => .error .errXLReadQuorum
  | b :: rest =>
    if b then
      let dataDisks' := if i < dataBlocks then dataDisks + 1 else dataDisks
      let parityDisks' := if i < dataBlocks then parityDisks else parityDisks + 1
      let readDisks' := readDisks.set i true
      if dataDisks' == dataBlocks then .ok (readDisks', i + 1)
      else if dataDisks' + parityDisks' == dataBlocks + 1 then .ok (readDisks', i + 1)
      else scanReadDisks rest (i + 1) dataBlocks dataDisks' parityDisks' readDisks'
    else scanReadDisks rest (i + 1) dataBlocks dataDisks parityDisks readDisks

/-- `getReadDisks` — returns the mask of disks for the next parallel
read and the next scan index.  First counts already-read data and
parity chunks over `orderedDisks[:index]`, applies the two sanity
checks (`errUnexpected`), then scans forward from `index`. -/
def getReadDisks (orderedDisks : List Bool) (index dataBlocks : Nat) :
    Except Err (List Bool × Nat) :=
  let counts := diskCountsFrom (orderedDisks.take index) dataBlocks 0
  if counts.1 == dataBlocks then .error .errUnexpected
  else if counts.1 + counts.2 ≥ dataBlocks + 1 then .error .errUnexpected
  else
    scanReadDisks (orderedDisks.drop index) index dataBlocks counts.1 counts.2
      (List.replicate orderedDisks.length false)

/-- `parallelRead` — reads the chunks of the disks selected in the
`readDisks` mask.  `outcome i` is the deterministic result of bit-rot
verification plus `copyN` for disk `i` on this block: `some bytes`
stores the chunk in `enBlocks[i]`; `none` (bit-rot or read error) sets
`orderedDisks[i] = nil` so the disk is not used for later blocks. -/
def parallelReadAux (readDisks orderedDisks : List Bool) (enBlocks : EnBlocks)
    (i : Nat) (outcome : Nat → Option Bytes) : List Bool × EnBlocks :=
  match readDisks, orderedDisks, enBlocks with
  | r :: rs, o :: os, e :: es =>
    let rest := parallelReadAux rs os es (i + 1) outcome
    if r then
      match outcome i with
      | some bytes => (o :: rest.1, some bytes :: rest.2)
      | none => (false :: rest.1, e :: rest.2)
    else (o :: rest.1, e :: rest.2)
  | _, os, es => (os, es)

/-- `parallelRead` over the whole disk set (absolute indices from 0). -/
def parallelRead (readDisks orderedDisks : List Bool) (enBlocks : EnBlocks)
    (outcome : Nat → Option Bytes) : List Bool × EnBlocks :=
  parallelReadAux readDisks orderedDisks enBlocks 0 outcome

theorem scanReadDisks_ok_bounds (remaining : List Bool) (i dataBlocks d p : Nat)
    (rd rd' : List Bool) (ni : Nat)
    (h : scanReadDisks remaining i dataBlocks d p rd = .ok (rd', ni)) :
    i < ni ∧ ni ≤ i + remaining.length := by
  induction remaining generalizing i d p rd with
  | nil => simp [scanReadDisks] at h
  | cons b rest ih =>
    simp only [scanReadDisks] at h
    split_ifs at h
    all_goals
      first
      | · simp only [Except.ok.injEq, Prod.mk.injEq] at h
          obtain ⟨-, rfl⟩ := h
          simp only [List.length_cons]
          omega
      | · have := ih _ _ _ _ h
          simp only [List.length_cons]
          omega

theorem parallelReadAux_lengths (readDisks orderedDisks : List Bool)
    (enBlocks : EnBlocks) (i : Nat) (outcome : Nat → Option Bytes) :
    (parallelReadAux readDisks orderedDisks enBlocks i outcome).1.length
        = orderedDisks.length
    ∧ (parallelReadAux readDisks orderedDisks enBlocks i outcome).2.length
        = enBlocks.length := by
  induction readDisks generalizing orderedDisks enBlocks i with
  | nil => simp [parallelReadAux]
  | cons r rs ih =>
    cases orderedDisks with
    | nil => simp [parallelReadAux]
    | cons o os =>
      cases enBlocks with
      | nil => simp [parallelReadAux]
      | cons e es =>
        simp only [parallelReadAux]
        have h := ih os es (i + 1)
        split_ifs with hr
        · cases houtcome : outcome i <;> simp [houtcome, h.1, h.2]
        · simp [h.1, h.2]

theorem getD_drop' {α : Type} (l : List α) (i j : Nat) (d : α) :
    (l.drop i).getD j d = l.getD (i + j) d := by
  induction l generalizing i with
  | nil => simp
  | cons x xs ih =>
    cases i with
    | zero => simp
    | succ i' =>
      rw [List.drop_succ_cons, show i' + 1 + j = (i' + j) + 1 by omega,
        List.getD_cons_succ]
      exact ih i'

theorem getD_set_self_true (l : List Bool) {i : Nat} (hi : i < l.length) :
    (l.set i true).getD i false = true := by
  simp [List.getD_eq_getElem?_getD, List.getElem?_set_self hi]

theorem getD_set_ne_bool (l : List Bool) {i j : Nat} (hij : i ≠ j) (b : Bool) :
    (l.set i b).getD j false = l.getD j false := by
  simp [List.getD_eq_getElem?_getD, List.getElem?_set_ne hij]

theorem getD_replicate_false (n j : Nat) :
    (List.replicate n false).getD j false = false := by
  simp [List.getD_eq_getElem?_getD, List.getElem?_replicate]
  split <;> simp

/-- Positions outside the scanned interval keep their initial mask value. -/
theorem scanReadDisks_mask_outside (remaining : List Bool) (i dataBlocks d p : Nat)
    (rd rd' : List Bool) (ni : Nat)
    (h : scanReadDisks remaining i dataBlocks d p rd = .ok (rd', ni)) :
    ∀ j, (j < i ∨ ni ≤ j) → rd'.getD j false = rd.getD j false := by
  induction remaining generalizing i d p rd with
  | nil => simp [scanReadDisks] at h
  | cons b rest ih =>
    have hbounds := scanReadDisks_ok_bounds _ _ _ _ _ _ _ _ h
    intro j hj
    have hji : i ≠ j := by omega
    simp only [scanReadDisks] at h
    rcases hj with hj | hj
    all_goals split_ifs at h
    all_goals
      first
      | (simp only [Except.ok.injEq, Prod.mk.injEq] at h
         obtain ⟨rfl, rfl⟩ := h
         exact getD_set_ne_bool rd hji true)
      | (rw [ih _ _ _ _ h j (Or.inl (by omega))]
         exact getD_set_ne_bool rd hji true)
      | (rw [ih _ _ _ _ h j (Or.inl (by omega))])
      | (rw [ih _ _ _ _ h j (Or.inr (by omega))]
         exact getD_set_ne_bool rd hji true)
      | (rw [ih _ _ _ _ h j (Or.inr (by omega))])

/-- Every available disk inside the scanned interval is selected. -/
theorem scanReadDisks_mask_selected (remaining : List Bool) (i dataBlocks d p : Nat)
    (rd rd' : List Bool) (ni : Nat)
    (hrd : i + remaining.length ≤ rd.length)
    (h : scanReadDisks remaining i dataBlocks d p rd = .ok (rd', ni)) :
    ∀ j, i ≤ j → j < ni → remaining.getD (j - i) false = true →
      rd'.getD j false = true := by
  induction remaining generalizing i d p rd with
  | nil => simp [scanReadDisks] at h
  | cons b rest ih =>
    intro j hij hjni hav
    have hbounds := scanReadDisks_ok_bounds _ _ _ _ _ _ _ _ h
    simp only [List.length_cons] at hrd hbounds
    simp only [scanReadDisks] at h
    by_cases hji : j = i
    · subst hji
      simp only [Nat.sub_self, List.getD_cons_zero] at hav
      subst hav
      rw [if_pos rfl] at h
      split_ifs at h
      all_goals
        first
        | (simp only [Except.ok.injEq, Prod.mk.injEq] at h
           obtain ⟨rfl, -⟩ := h
           exact getD_set_self_true rd (by omega))
        | (rw [scanReadDisks_mask_outside _ _ _ _ _ _ _ _ h j (Or.inl (by omega))]
           exact getD_set_self_true rd (by omega))
    · have hij' : i + 1 ≤ j := by omega
      have hav' : rest.getD (j - (i + 1)) false = true := by
        have heq : j - i = (j - (i + 1)) + 1 := by omega
        rwa [heq, List.getD_cons_succ] at hav
      split_ifs at h
      all_goals
        first
        | (simp only [Except.ok.injEq, Prod.mk.injEq] at h
           obtain ⟨-, rfl⟩ := h
           exact absurd hjni (by omega))
        | (exact ih _ _ _ (rd.set i true)
            (by simp only [List.length_set]; omega) h j hij' hjni hav')
        | (exact ih _ _ _ rd (by omega) h j hij' hjni hav')

theorem getD_take' {α : Type} (l : List α) (k j : Nat) (d : α) :
    (l.take k).getD j d = if j < k then l.getD j d else d := by
  induction l generalizing k j with
  | nil => simp
  | cons x xs ih =>
    cases k with
    | zero => simp
    | succ k' =>
      cases j with
      | zero => simp
      | succ j' =>
        simp only [List.take_succ_cons, List.getD_cons_succ, ih k' j']
        by_cases hj : j' < k' <;> simp [hj, Nat.succ_lt_succ_iff]

theorem getReadDisks_ok_bounds (od : List Bool) (index dataBlocks : Nat)
    (rd : List Bool) (ni : Nat)
    (h : getReadDisks od index dataBlocks = .ok (rd, ni)) :
    index < ni ∧ ni ≤ od.length := by
  simp only [getReadDisks] at h
  split_ifs at h
  · have hb := scanReadDisks_ok_bounds _ _ _ _ _ _ _ _ h
    have hlt : index < od.length := by
      by_contra hc
      rw [List.drop_eq_nil_of_le (by omega)] at h
      simp [scanReadDisks] at h
    have hdl : (od.drop index).length = od.length - index := by simp
    omega

theorem getReadDisks_mask_outside (od : List Bool) (index dataBlocks : Nat)
    (rd : List Bool) (ni : Nat)
    (h : getReadDisks od index dataBlocks = .ok (rd, ni)) :
    ∀ j, (j < index ∨ ni ≤ j) → rd.getD j false = false := by
  simp only [getReadDisks] at h
  split_ifs at h
  · intro j hj
    rw [scanReadDisks_mask_outside _ _ _ _ _ _ _ _ h j hj]
    exact getD_replicate_false _ _

theorem getReadDisks_mask_selected (od : List Bool) (index dataBlocks : Nat)
    (rd : List Bool) (ni : Nat)
    (h : getReadDisks od index dataBlocks = .ok (rd, ni)) :
    ∀ j, index ≤ j → j < ni → od.getD j false = true → rd.getD j false = true := by
  have hlt : index < od.length := by
    have := getReadDisks_ok_bounds _ _ _ _ _ h
    simp only [getReadDisks] at h
    split_ifs at h
    · by_contra hc
      rw [List.drop_eq_nil_of_le (by omega)] at h
      simp [scanReadDisks] at h
  simp only [getReadDisks] at h
  split_ifs at h
  · intro j hj1 hj2 hav
    refine scanReadDisks_mask_selected _ _ _ _ _ _ _ _ ?_ h j hj1 hj2 ?_
    · simp only [List.length_drop, List.length_replicate]
      omega
    · rw [getD_drop', show index + (j - index) = j by omega]
      exact hav

theorem parallelReadAux_getD (rs : List Bool) (os : List Bool) (es : EnBlocks)
    (i : Nat) (oc : Nat → Option Bytes) (j : Nat)
    (hlen1 : rs.length = os.length) (hlen2 : es.length = os.length) :
    ((parallelReadAux rs os es i oc).1.getD j false
      = if rs.getD j false then
          (if (oc (i + j)).isSome then os.getD j false else false)
        else os.getD j false)
    ∧ ((parallelReadAux rs os es i oc).2.getD j none
      = if rs.getD j false then
          (if (oc (i + j)).isSome then oc (i + j) else es.getD j none)
        else es.getD j none) := by
  induction rs generalizing os es i j with
  | nil =>
    have hos : os = [] := List.eq_nil_of_length_eq_zero hlen1.symm
    subst hos
    have hes : es = [] := List.eq_nil_of_length_eq_zero hlen2
    subst hes
    simp [parallelReadAux]
  | cons r rs' ih =>
    cases os with
    | nil => simp at hlen1
    | cons o os' =>
      cases es with
      | nil => simp at hlen2
      | cons e es' =>
        have hlen1' : rs'.length = os'.length := by simpa using hlen1
        have hlen2' : es'.length = os'.length := by simpa using hlen2
        cases j with
        | zero =>
          cases r with
          | false => simp [parallelReadAux]
          | true =>
            cases hoc : oc i with
            | none => simp [parallelReadAux, hoc]
            | some bs => simp [parallelReadAux, hoc]
        | succ j' =>
          have hrec := ih os' es' (i + 1) j' hlen1' hlen2'
          have hidx : i + (j' + 1) = (i + 1) + j' := by omega
          cases r with
          | false =>
            simpa [parallelReadAux, hidx] using hrec
          | true =>
            cases hoc : oc i with
            | none => simpa [parallelReadAux, hoc, hidx] using hrec
            | some bs => simpa [parallelReadAux, hoc, hidx] using hrec

theorem countSuccessBlocksFrom_sum (en : EnBlocks) (D idx : Nat) :
    (countSuccessBlocksFrom en D idx).1 + (countSuccessBlocksFrom en D idx).2
      = (en.filter Option.isSome).length := by
  induction en generalizing idx with
  | nil => simp [countSuccessBlocksFrom]
  | cons e rest ih =>
    cases e with
    | none => simpa [countSuccessBlocksFrom] using ih (idx + 1)
    | some b =>
      have := ih (idx + 1)
      simp only [countSuccessBlocksFrom, List.filter_cons, Option.isSome_some,
        if_true, List.length_cons]
      split_ifs <;> simp <;> omega

theorem countSuccessBlocksFrom_data_le (en : EnBlocks) (D idx : Nat) :
    (countSuccessBlocksFrom en D idx).1 ≤ D - idx := by
  induction en generalizing idx with
  | nil => simp [countSuccessBlocksFrom]
  | cons e rest ih =>
    cases e with
    | none =>
      have := ih (idx + 1)
      simp only [countSuccessBlocksFrom]
      omega
    | some b =>
      have := ih (idx + 1)
      simp only [countSuccessBlocksFrom]
      split_ifs with hlt <;> simp <;> omega

theorem countSuccessBlocksFrom_data_eq_take (en : EnBlocks) (D idx : Nat) :
    (countSuccessBlocksFrom en D idx).1
      = ((en.take (D - idx)).filter Option.isSome).length := by
  induction en generalizing idx with
  | nil => simp [countSuccessBlocksFrom]
  | cons e rest ih =>
    by_cases hidx : idx < D
    · have hDidx : D - idx = (D - (idx + 1)) + 1 := by omega
      cases e with
      | none =>
        rw [hDidx]
        simp only [countSuccessBlocksFrom, List.take_succ_cons, List.filter_cons,
          Option.isSome_none, Bool.false_eq_true, if_false]
        exact ih (idx + 1)
      | some b =>
        rw [hDidx]
        simp only [countSuccessBlocksFrom, List.take_succ_cons, List.filter_cons,
          Option.isSome_some, if_true, List.length_cons, if_pos hidx]
        simp [ih (idx + 1)]
    · have hD0 : D - idx = 0 := by omega
      rw [hD0]
      simp only [List.take_zero, List.filter_nil, List.length_nil]
      have := countSuccessBlocksFrom_data_le (e :: rest) D idx
      omega

theorem countSuccessBlocksFrom_take_le (en : EnBlocks) (k D idx : Nat) :
    (countSuccessBlocksFrom (en.take k) D idx).1 ≤ (countSuccessBlocksFrom en D idx).1
    ∧ (countSuccessBlocksFrom (en.take k) D idx).2 ≤ (countSuccessBlocksFrom en D idx).2 := by
  induction en generalizing k idx with
  | nil => simp [countSuccessBlocksFrom]
  | cons e rest ih =>
    cases k with
    | zero => simp [countSuccessBlocksFrom]
    | succ k' =>
      have := ih k' (idx + 1)
      cases e with
      | none => simpa [countSuccessBlocksFrom] using this
      | some b =>
        simp only [List.take_succ_cons, countSuccessBlocksFrom]
        split_ifs <;> constructor <;> simp <;> omega

theorem countSuccessBlocksFrom_replicate_none (n D idx : Nat) :
    countSuccessBlocksFrom (List.replicate n none) D idx = (0, 0) := by
  induction n generalizing idx with
  | zero => simp [countSuccessBlocksFrom]
  | succ n' ih => simpa [List.replicate_succ, countSuccessBlocksFrom] using ih (idx + 1)

theorem diskCountsFrom_le_blockCounts (od : List Bool) (en : EnBlocks) (D idx : Nat)
    (hlen : od.length ≤ en.length)
    (hinv : ∀ j, od.getD j false = true → (en.getD j none).isSome = true) :
    (diskCountsFrom od D idx).1 ≤ (countSuccessBlocksFrom en D idx).1
    ∧ (diskCountsFrom od D idx).2 ≤ (countSuccessBlocksFrom en D idx).2 := by
  induction od generalizing en idx with
  | nil => simp [diskCountsFrom]
  | cons o os ih =>
    cases en with
    | nil => simp at hlen
    | cons e es =>
      have hinv' : ∀ j, os.getD j false = true → (es.getD j none).isSome = true := by
        intro j hj
        have := hinv (j + 1)
        simp only [List.getD_cons_succ] at this
        exact this hj
      have hih := ih es (idx + 1) (by simpa using hlen) hinv'
      cases o with
      | false =>
        cases e with
        | none => simpa [diskCountsFrom, countSuccessBlocksFrom] using hih
        | some b =>
          simp only [diskCountsFrom, countSuccessBlocksFrom]
          split_ifs <;> constructor <;> simp <;> omega
      | true =>
        have he : e.isSome = true := hinv 0 (by simp)
        obtain ⟨b, rfl⟩ := Option.isSome_iff_exists.mp he
        simp only [diskCountsFrom, countSuccessBlocksFrom]
        split_ifs <;> constructor <;> simp <;> omega

theorem scanReadDisks_rd_length (remaining : List Bool) (i dataBlocks d p : Nat)
    (rd rd' : List Bool) (ni : Nat)
    (h : scanReadDisks remaining i dataBlocks d p rd = .ok (rd', ni)) :
    rd'.length = rd.length := by
  induction remaining generalizing i d p rd with
  | nil => simp [scanReadDisks] at h
  | cons b rest ih =>
    simp only [scanReadDisks] at h
    split_ifs at h
    all_goals
      first
      | (simp only [Except.ok.injEq, Prod.mk.injEq] at h
         obtain ⟨rfl, -⟩ := h
         simp)
      | (rw [ih _ _ _ _ h]; simp)
      | (exact ih _ _ _ _ h)

theorem getReadDisks_rd_length (od : List Bool) (index dataBlocks : Nat)
    (rd : List Bool) (ni : Nat)
    (h : getReadDisks od index dataBlocks = .ok (rd, ni)) :
    rd.length = od.length := by
  simp only [getReadDisks] at h
  split_ifs at h
  rw [scanReadDisks_rd_length _ _ _ _ _ _ _ _ h]
  simp

theorem scanReadDisks_error (remaining : List Bool) (i dataBlocks d p : Nat)
    (rd : List Bool) (e : Err)
    (h : scanReadDisks remaining i dataBlocks d p rd = .error e) :
    e = Err.errXLReadQuorum := by
  induction remaining generalizing i d p rd with
  | nil =>
    simp only [scanReadDisks, Except.error.injEq] at h
    exact h.symm
  | cons b rest ih =>
    simp only [scanReadDisks] at h
    split_ifs at h
    all_goals exact ih _ _ _ _ h

/-- Under the read-loop invariant — every ordered disk still marked
available below the scan index has its block in `enBlocks` — and while
decoding has not yet succeeded, `getReadDisks` cannot take its
`errUnexpected` sanity exits: any error it returns is the read-quorum
error. -/
theorem getReadDisks_error_quorum (od : List Bool) (en : EnBlocks) (k dataBlocks : Nat)
    (hlen : en.length = od.length)
    (hinv : ∀ i < k, od.getD i false = true → (en.getD i none).isSome = true)
    (hns : isSuccessDecodeBlocks en dataBlocks = false)
    (e : Err) (h : getReadDisks od k dataBlocks = .error e) :
    e = Err.errXLReadQuorum := by
  have hprior :
      (diskCountsFrom (od.take k) dataBlocks 0).1
          ≤ (countSuccessBlocksFrom en dataBlocks 0).1
      ∧ (diskCountsFrom (od.take k) dataBlocks 0).2
          ≤ (countSuccessBlocksFrom en dataBlocks 0).2 := by
    have h1 := diskCountsFrom_le_blockCounts (od.take k) (en.take k) dataBlocks 0
      (by simp [hlen])
      (by
        intro j hj
        rw [getD_take'] at hj
        by_cases hjk : j < k
        · rw [if_pos hjk] at hj
          rw [getD_take', if_pos hjk]
          exact hinv j hjk hj
        · rw [if_neg hjk] at hj
          exact absurd hj (by simp))
    have h2 := countSuccessBlocksFrom_take_le en k dataBlocks 0
    exact ⟨le_trans h1.1 h2.1, le_trans h1.2 h2.2⟩
  have hdle := countSuccessBlocksFrom_data_le en dataBlocks 0
  have hns' : (countSuccessBlocksFrom en dataBlocks 0).1 ≠ dataBlocks
      ∧ (countSuccessBlocksFrom en dataBlocks 0).1
          + (countSuccessBlocksFrom en dataBlocks 0).2 < dataBlocks + 1 := by
    have h' := hns
    simp only [isSuccessDecodeBlocks, Bool.or_eq_false_iff, beq_eq_false_iff_ne,
      ne_eq, decide_eq_false_iff_not, not_le] at h'
    exact h'
  simp only [getReadDisks] at h
  split_ifs at h with hc1 hc2
  · exfalso
    simp only [beq_iff_eq] at hc1
    omega
  · exfalso
    omega
  · exact scanReadDisks_error _ _ _ _ _ _ _ h

/-- The per-block read retry loop of `erasureReadFile`: call
`getReadDisks`, read the selected disks in parallel, stop when
`isSuccessDecodeBlocks` holds, fail with `errXLReadQuorum` when no more
disks remain, otherwise retry from `nextIndex`. -/
def readBlockLoop (orderedDisks : List Bool) (enBlocks : EnBlocks)
    (nextIndex dataBlocks : Nat) (outcome : Nat → Option Bytes) : Except Err EnBlocks :=
  match h : getReadDisks orderedDisks nextIndex dataBlocks with
  | .error e => .error e
  | .ok (readDisks, ni) =>
    if isSuccessDecodeBlocks (parallelRead readDisks orderedDisks enBlocks outcome).2
        dataBlocks then
      .ok (parallelRead readDisks orderedDisks enBlocks outcome).2
    else if ni = orderedDisks.length then .error .errXLReadQuorum
    else
      readBlockLoop (parallelRead readDisks orderedDisks enBlocks outcome).1
        (parallelRead readDisks orderedDisks enBlocks outcome).2 ni dataBlocks outcome
termination_by orderedDisks.length - nextIndex
decreasing_by
  have hb := getReadDisks_ok_bounds _ _ _ _ _ h
  have hl := (parallelReadAux_lengths readDisks orderedDisks enBlocks 0 outcome).1
  simp only [parallelRead] at *
  omega

/-- The whole per-block read of `erasureReadFile`: `enBlocks` starts as
a fresh vector of nils and the scan index at 0. -/
def readFileBlock (orderedDisks : List Bool) (dataBlocks : Nat)
    (outcome : Nat → Option Bytes) : Except Err EnBlocks :=
  readBlockLoop orderedDisks (List.replicate orderedDisks.length none) 0 dataBlocks
    outcome

/-- Any error escaping the per-block read retry loop is the read-quorum
error, provided the loop invariant holds and decoding has not already
succeeded (which is how `erasureReadFile` enters and re-enters it). -/
theorem readBlockLoop_error_quorum (dataBlocks : Nat) :
    ∀ (fuel : Nat) (od : List Bool) (en : EnBlocks) (k : Nat)
      (outcome : Nat → Option Bytes) (e : Err),
      od.length - k ≤ fuel →
      en.length = od.length →
      (∀ i < k, od.getD i false = true → (en.getD i none).isSome = true) →
      isSuccessDecodeBlocks en dataBlocks = false →
      readBlockLoop od en k dataBlocks outcome = .error e →
      e = Err.errXLReadQuorum := by
  intro fuel
  induction fuel with
  | zero =>
    intro od en k oc e hfuel hlen hinv hns herr
    rw [readBlockLoop] at herr
    split at herr
    · rename_i e' heq
      simp only [Except.error.injEq] at herr
      subst herr
      exact getReadDisks_error_quorum od en k dataBlocks hlen hinv hns _ heq
    · rename_i readDisks ni heq
      have hb := getReadDisks_ok_bounds _ _ _ _ _ heq
      omega
  | succ fuel' ih =>
    intro od en k oc e hfuel hlen hinv hns herr
    rw [readBlockLoop] at herr
    split at herr
    · rename_i e' heq
      simp only [Except.error.injEq] at herr
      subst herr
      exact getReadDisks_error_quorum od en k dataBlocks hlen hinv hns _ heq
    · rename_i readDisks ni heq
      have hb := getReadDisks_ok_bounds _ _ _ _ _ heq
      have hrdlen := getReadDisks_rd_length _ _ _ _ _ heq
      have hl := parallelReadAux_lengths readDisks od en 0 oc
      split_ifs at herr with hsucc hend
      · -- ni = od.length: direct quorum error
        simp only [Except.error.injEq] at herr
        exact herr.symm
      · -- recursive case
        refine ih (parallelRead readDisks od en oc).1
          (parallelRead readDisks od en oc).2 ni oc e ?_ ?_ ?_ ?_ herr
        · simp only [parallelRead] at *
          omega
        · simp only [parallelRead] at *
          omega
        · intro i hi hresi
          have hogetd := parallelReadAux_getD readDisks od en 0 oc i hrdlen hlen
          simp only [Nat.zero_add, parallelRead] at hogetd hresi ⊢
          rw [hogetd.2]
          rw [hogetd.1] at hresi
          by_cases hmask : readDisks.getD i false = true
          · rw [if_pos hmask] at hresi ⊢
            by_cases hoc : (oc i).isSome = true
            · simp [hoc]
            · rw [if_neg hoc] at hresi
              exact absurd hresi (by simp)
          · rw [if_neg hmask] at hresi ⊢
            by_cases hik : i < k
            · exact hinv i hik hresi
            · exfalso
              have := getReadDisks_mask_selected _ _ _ _ _ heq i (by omega) hi hresi
              exact hmask this
        · exact Bool.not_eq_true _ ▸ hsucc

/-- C1: for an encoded-block vector of length N = 2·D,
`isSuccessDecodeBlocks(enBlocks, D)` is true exactly when all of the
first D entries are non-nil, or at least D + 1 entries in total (data
plus parity) are non-nil; and any error escaping the per-block read
loop of `erasureReadFile` (entered with a fresh nil vector and scan
index 0) is `errXLReadQuorum` — in particular, exhausting the ordered
disk list without reaching either condition fails with the read-quorum
error and never with the `errUnexpected` sanity error. -/
theorem isSuccessDecodeBlocks_readLoop_spec (dataBlocks : Nat) (hD : 1 ≤ dataBlocks) :
    (∀ enBlocks : EnBlocks, enBlocks.length = 2 * dataBlocks →
      (isSuccessDecodeBlocks enBlocks dataBlocks = true ↔
        ((enBlocks.take dataBlocks).all Option.isSome = true
          ∨ dataBlocks + 1 ≤ (enBlocks.filter Option.isSome).length)))
    ∧ (∀ (orderedDisks : List Bool) (outcome : Nat → Option Bytes) (e : Err),
        readFileBlock orderedDisks dataBlocks outcome = .error e →
        e = Err.errXLReadQuorum) := by
  constructor
  · intro en hlen
    have hdata := countSuccessBlocksFrom_data_eq_take en dataBlocks 0
    have hsum := countSuccessBlocksFrom_sum en dataBlocks 0
    simp only [Nat.sub_zero] at hdata
    have htlen : (en.take dataBlocks).length = dataBlocks := by
      simp only [List.length_take, hlen]
      omega
    have hfle := List.length_filter_le Option.isSome (en.take dataBlocks)
    constructor
    · intro hsucc
      simp only [isSuccessDecodeBlocks, Bool.or_eq_true, beq_iff_eq,
        decide_eq_true_eq] at hsucc
      rcases hsucc with h1 | h2
      · left
        rw [List.all_eq_true]
        have hfl : ((en.take dataBlocks).filter Option.isSome).length
            = (en.take dataBlocks).length := by omega
        exact fun x hx => List.filter_length_eq_length.mp hfl x hx
      · right
        omega
    · intro h
      simp only [isSuccessDecodeBlocks, Bool.or_eq_true, beq_iff_eq,
        decide_eq_true_eq]
      rcases h with h1 | h2
      · left
        rw [List.all_eq_true] at h1
        have hfl := List.filter_length_eq_length.mpr h1
        omega
      · right
        omega
  · intro od oc e herr
    simp only [readFileBlock] at herr
    refine readBlockLoop_error_quorum dataBlocks od.length od _ 0 oc e
      (by omega) (by simp) (fun i hi => absurd hi (Nat.not_lt_zero i)) ?_ herr
    simp only [isSuccessDecodeBlocks, countSuccessBlocksFrom_replicate_none,
      Bool.or_eq_false_iff, beq_eq_false_iff_ne, ne_eq, decide_eq_false_iff_not,
      not_le]
    omega

/-- C1 (witness): the decode-success test at D = 2 on a concrete
four-entry vector, and a concrete read loop over four disks of which
only the first is available, which exhausts the list and fails with
`errXLReadQuorum`. -/
theorem isSuccessDecodeBlocks_readLoop_spec_witness :
    (isSuccessDecodeBlocks [some [1], none, none, some [2]] 2 = true ↔
      ((([some [1], none, none, some [2]] : EnBlocks).take 2).all Option.isSome = true
        ∨ 2 + 1 ≤ (([some [1], none, none, some [2]] : EnBlocks).filter
            Option.isSome).length))
    ∧ Err.errXLReadQuorum = Err.errXLReadQuorum := by
  constructor
  · exact (isSuccessDecodeBlocks_readLoop_spec 2 (by decide)).1
      [some [1], none, none, some [2]] (by decide)
  · refine (isSuccessDecodeBlocks_readLoop_spec 2 (by decide)).2
      [true, false, false, false] (fun _ => none) Err.errXLReadQuorum ?_
    rw [readFileBlock, readBlockLoop]
    rfl

/-! ## Decode and per-block write step (`erasure-readfile.go`, `decodeData`) -/

/-- `decodeData` — decode encoded blocks, parametrised by the
reedsolomon library's `Reconstruct` and `Verify` (external library
functions; `rs.Reconstruct` mutates `enBlocks` in place, modelled here
by returning the filled vector).  `reedsolomon.New(dataBlocks,
parityBlocks)` cannot fail for the engine's shard counts (both ≥ 1),
so its error path is not modelled.  A `Verify` result of `false` is
turned into the corrupted-data error. -/
def decodeData (reconstruct : EnBlocks → Except Err EnBlocks)
    (verify : EnBlocks → Except Err Bool) (enBlocks : EnBlocks) :
    Except Err EnBlocks :=
  match reconstruct enBlocks with
  | .error e => .error e
  | .ok blocks =>
    match verify blocks with
    | .error e => .error e
    | .ok true => .ok blocks
    | .ok false => .error .errVerificationFailed

/-- Modelled from the spec: `writeDataBlocks` (not part of the supplied
sources) assembles the `dataBlocks` data shards in order and writes
`outSize` bytes starting at `outOffset` of the assembled block to the
sink — "Assemble the D data shards in order, strip padding for the tail
block, slice by `skipInFirst` (first block) and `outSize`". -/
def writeDataBlocks (enBlocks : EnBlocks) (dataBlocks : Nat)
    (outOffset outSize : Nat) : Bytes :=
  ((((enBlocks.take dataBlocks).map (fun b => b.getD [])).flatten).drop
      outOffset).take outSize

/-- The per-block tail of `erasureReadFile` once the read loop has
succeeded: if some data block is missing, run `decodeData` (returning
its error without touching the sink); then append the block's bytes to
the sink via `writeDataBlocks`. -/
def erasureReadFileBlockStep (reconstruct : EnBlocks → Except Err EnBlocks)
    (verify : EnBlocks → Except Err Bool) (enBlocks : EnBlocks)
    (dataBlocks : Nat) (outOffset outSize : Nat) (sink : List Bytes) :
    Except Err (List Bytes) :=
  if isSuccessDataBlocks enBlocks dataBlocks then
    .ok (sink ++ [writeDataBlocks enBlocks dataBlocks outOffset outSize])
  else
    match decodeData reconstruct verify enBlocks with
    | .error e => .error e
    | .ok decoded => .ok (sink ++ [writeDataBlocks decoded dataBlocks outOffset outSize])

theorem filter_isSome_take_lt (en : EnBlocks) (D : Nat) (hlen : D ≤ en.length) :
    ((en.take D).filter Option.isSome).length < D
      ↔ ∃ i < D, en.getD i none = none := by
  induction en generalizing D with
  | nil =>
    have : D = 0 := by simpa using hlen
    subst this
    simp
  | cons e rest ih =>
    cases D with
    | zero => simp
    | succ D' =>
      have hlen' : D' ≤ rest.length := by simpa using hlen
      cases e with
      | none =>
        simp only [List.take_succ_cons, List.filter_cons, Option.isSome_none,
          Bool.false_eq_true, if_false]
        constructor
        · intro _
          exact ⟨0, by omega, rfl⟩
        · intro _
          have h1 := List.length_filter_le Option.isSome (rest.take D')
          have h2 : (rest.take D').length ≤ D' := by simp
          omega
      | some b =>
        simp only [List.take_succ_cons, List.filter_cons, Option.isSome_some,
          if_true, List.length_cons]
        rw [show (∃ i < D' + 1, (some b :: rest).getD i none = none)
            ↔ ∃ i < D', rest.getD i none = none from ?_]
        · constructor
          · intro h
            exact (ih D' hlen').mp (by omega)
          · intro h
            have := (ih D' hlen').mpr h
            omega
        · constructor
          · rintro ⟨i, hi, hnone⟩
            cases i with
            | zero => simp at hnone
            | succ i' => exact ⟨i', by omega, by simpa using hnone⟩
          · rintro ⟨i, hi, hnone⟩
            exact ⟨i + 1, by omega, by simpa using hnone⟩

/-- C2: `erasureReadFile` invokes Reed-Solomon reconstruction for a
block exactly when at least one of the first D data entries is nil
(`isSuccessDataBlocks` fails); in that case `decodeData` runs
`Reconstruct` and then `Verify`, and a `Verify` mismatch makes the call
return the corrupted-data error without writing the block's bytes to
the sink. -/
theorem decodeData_verify_spec (dataBlocks : Nat)
    (reconstruct : EnBlocks → Except Err EnBlocks)
    (verify : EnBlocks → Except Err Bool) (enBlocks : EnBlocks)
    (hlen : dataBlocks ≤ enBlocks.length) :
    (isSuccessDataBlocks enBlocks dataBlocks = false
      ↔ ∃ i < dataBlocks, enBlocks.getD i none = none)
    ∧ (∀ recon, reconstruct enBlocks = .ok recon → verify recon = .ok false →
        decodeData reconstruct verify enBlocks = .error .errVerificationFailed
        ∧ ∀ outOffset outSize sink,
            isSuccessDataBlocks enBlocks dataBlocks = false →
            erasureReadFileBlockStep reconstruct verify enBlocks dataBlocks
                outOffset outSize sink
              = .error .errVerificationFailed) := by
  constructor
  · rw [← filter_isSome_take_lt enBlocks dataBlocks hlen]
    simp only [isSuccessDataBlocks]
    constructor
    · intro h
      simp only [ge_iff_le, decide_eq_false_iff_not, not_le] at h
      exact h
    · intro h
      simp only [ge_iff_le, decide_eq_false_iff_not, not_le]
      exact h
  · intro recon hrecon hverify
    have hdec : decodeData reconstruct verify enBlocks
        = .error .errVerificationFailed := by
      simp only [decodeData, hrecon, hverify]
    refine ⟨hdec, ?_⟩
    intro outOffset outSize sink hns
    simp only [erasureReadFileBlockStep, hns, Bool.false_eq_true, if_false, hdec]

/-- C2 (witness): D = 2 over four shards with the first data shard nil;
a codec whose `Verify` reports a mismatch after reconstruction. -/
theorem decodeData_verify_spec_witness :
    (isSuccessDataBlocks [none, some [1], some [2], some [3]] 2 = false
      ↔ ∃ i < 2, ([none, some [1], some [2], some [3]] : EnBlocks).getD i none = none)
    ∧ decodeData (fun b => .ok b) (fun _ => .ok false)
        [none, some [1], some [2], some [3]] = .error .errVerificationFailed
    ∧ erasureReadFileBlockStep (fun b => .ok b) (fun _ => .ok false)
        [none, some [1], some [2], some [3]] 2 0 6 []
      = .error .errVerificationFailed := by
  have h := decodeData_verify_spec 2 (fun b => .ok b) (fun _ => .ok false)
    [none, some [1], some [2], some [3]] (by decide)
  have h2 := h.2 [none, some [1], some [2], some [3]] rfl rfl
  exact ⟨h.1, h2.1, h2.2 0 6 [] (by decide)⟩

/-! ## Tree-walker pool lookup (`xl-v1-list-objects.go`, `lookupTreeWalk`) -/

/-- A pooled `treeWalker`: the channel is irrelevant to pool management,
so a walker is its identity (modelling the Go pointer) plus the
`timedOut` flag. -/
structure TreeWalker where
  id : Nat
  timedOut : Bool
  deriving DecidableEq, Repr

/-- `xlObjects.lookupTreeWalk`, restricted to the one key of
`listObjectMap` being looked up (all map accesses happen under
`listObjectMapMutex`): scan the stored walker list for the first
non-timed-out walker; hand it out and store the strict suffix after it
(or delete the key when that suffix is empty); if every stored walker
has timed out, delete the key and return nothing. -/
def lookupTreeWalkList : List TreeWalker → Option TreeWalker × Option (List TreeWalker)
  | [] => (none, none)
  | w :: rest =>
    if ¬ w.timedOut then
      (some w, if rest.length > 0 then some rest else none)
    else lookupTreeWalkList rest

/-- The map-level wrapper: `none` models an absent key. -/
def lookupTreeWalk (stored : Option (List TreeWalker)) :
    Option TreeWalker × Option (List TreeWalker) :=
  match stored with
  | none => (none, none)
  | some walkChs => lookupTreeWalkList walkChs

/-- C8: `lookupTreeWalk` never returns a timed-out walker; the returned
walker is removed from the stored list (under distinctness of the
stored walker pointers, it no longer occurs, so it is handed out at
most once); and when every stored walker for the key has timed out,
nothing is returned and the key is deleted (`none`). -/
theorem lookupTreeWalk_spec (walkers : List TreeWalker) :
    (∀ w, (lookupTreeWalkList walkers).1 = some w → w.timedOut = false)
    ∧ (walkers.Nodup → ∀ w l', (lookupTreeWalkList walkers).1 = some w →
        (lookupTreeWalkList walkers).2 = some l' → w ∉ l')
    ∧ ((∀ w ∈ walkers, w.timedOut = true) →
        lookupTreeWalkList walkers = (none, none)) := by
  induction walkers with
  | nil =>
    refine ⟨?_, ?_, ?_⟩
    · intro w hw
      simp [lookupTreeWalkList] at hw
    · intro _ w l' hw _
      simp [lookupTreeWalkList] at hw
    · intro _
      rfl
  | cons w0 rest ih =>
    refine ⟨?_, ?_, ?_⟩
    · intro w hw
      cases hto : w0.timedOut with
      | false =>
        simp only [lookupTreeWalkList, hto, Bool.false_eq_true, not_false_iff,
          if_true, Option.some.injEq] at hw
        rw [← hw]
        exact hto
      | true =>
        simp only [lookupTreeWalkList, hto, not_true, if_false] at hw
        exact ih.1 w hw
    · intro hnd w l' hw hl'
      cases hto : w0.timedOut with
      | false =>
        simp only [lookupTreeWalkList, hto, Bool.false_eq_true, not_false_iff,
          if_true, Option.some.injEq] at hw hl'
        subst hw
        split_ifs at hl' with hlen
        simp only [Option.some.injEq] at hl'
        subst hl'
        exact (List.nodup_cons.mp hnd).1
      | true =>
        simp only [lookupTreeWalkList, hto, not_true, if_false] at hw hl'
        exact ih.2.1 (List.nodup_cons.mp hnd).2 w l' hw hl'
    · intro hall
      have h0 := hall w0 (by simp)
      simp only [lookupTreeWalkList, h0, not_true, if_false]
      exact ih.2.2 (fun w hw => hall w (by simp [hw]))

/-- C8 (witness): a pool list whose first walker timed out; the second
is handed out, is not timed out, and no longer occurs in the stored
suffix; a fully timed-out list deletes the key. -/
theorem lookupTreeWalk_spec_witness :
    (⟨1, false⟩ : TreeWalker).timedOut = false
    ∧ (⟨1, false⟩ : TreeWalker) ∉ [(⟨2, false⟩ : TreeWalker)]
    ∧ lookupTreeWalkList [⟨0, true⟩, ⟨1, true⟩] = (none, none) := by
  have h := lookupTreeWalk_spec [⟨0, true⟩, ⟨1, false⟩, ⟨2, false⟩]
  refine ⟨h.1 ⟨1, false⟩ rfl, ?_, ?_⟩
  · exact h.2.1 (by decide) ⟨1, false⟩ [⟨2, false⟩] rfl rfl
  · exact (lookupTreeWalk_spec [⟨0, true⟩, ⟨1, true⟩]).2.2 (by decide)

/-! ## Ordered tree walker (`tree-walk.go` via `xl-v1-list-objects`) -/

/-- The `/` byte — `slashSeparator`. -/
def slashByte : Nat := 47

/-- Bytewise lexicographic strict comparison of Go strings
(`s1 < s2`). -/
def strLtB : Str → Str → Bool
  | [], [] => false
  | [], _ :: _ => true
  | _ :: _, [] => false
  | a :: as, b :: bs =>
    if a < b then true
    else if b < a then false
    else strLtB as bs

/-- Bytewise lexicographic `s1 ≤ s2` (total order: `¬ (s2 < s1)`). -/
def strLeB (a b : Str) : Bool := ¬ strLtB b a

theorem strLtB_irrefl (a : Str) : strLtB a a = false := by
  induction a with
  | nil => rfl
  | cons c cs ih => simp [strLtB, ih]

theorem strLtB_asymm (a b : Str) (h : strLtB a b = true) : strLtB b a = false := by
  induction a generalizing b with
  | nil =>
    cases b with
    | nil => simp [strLtB] at h
    | cons y ys => rfl
  | cons x xs ih =>
    cases b with
    | nil => simp [strLtB] at h
    | cons y ys =>
      simp only [strLtB] at h ⊢
      by_cases h1 : x < y
      · rw [if_neg (by omega), if_pos h1]
      · by_cases h2 : y < x
        · rw [if_neg h1, if_pos h2] at h
          exact absurd h (by simp)
        · rw [if_neg h1, if_neg h2] at h
          rw [if_neg h2, if_neg h1]
          exact ih ys h

theorem strLtB_connex (a b : Str) (hab : strLtB a b = false)
    (hba : strLtB b a = false) : a = b := by
  induction a generalizing b with
  | nil =>
    cases b with
    | nil => rfl
    | cons y ys => simp [strLtB] at hab
  | cons x xs ih =>
    cases b with
    | nil => simp [strLtB] at hba
    | cons y ys =>
      simp only [strLtB] at hab hba
      by_cases h1 : x < y
      · rw [if_pos h1] at hab
        exact absurd hab (by simp)
      · by_cases h2 : y < x
        · rw [if_pos h2] at hba
          exact absurd hba (by simp)
        · rw [if_neg h1, if_neg h2] at hab
          rw [if_neg h2, if_neg h1] at hba
          have hxy : x = y := by omega
          rw [hxy, ih ys hab hba]

theorem strLtB_trans (a b c : Str) (hab : strLtB a b = true)
    (hbc : strLtB b c = true) : strLtB a c = true := by
  induction a generalizing b c with
  | nil =>
    cases c with
    | nil =>
      cases b with
      | nil => simp [strLtB] at hab
      | cons y ys => simp [strLtB] at hbc
    | cons z zs => rfl
  | cons x xs ih =>
    cases b with
    | nil => simp [strLtB] at hab
    | cons y ys =>
      cases c with
      | nil => simp [strLtB] at hbc
      | cons z zs =>
        simp only [strLtB] at hab hbc ⊢
        by_cases h1 : x < y
        · by_cases h3 : y < z
          · rw [if_pos (by omega)]
          · rw [if_neg h3] at hbc
            by_cases h4 : z < y
            · rw [if_pos h4] at hbc
              exact absurd hbc (by simp)
            · rw [if_pos (by omega)]
        · by_cases h2 : y < x
          · rw [if_neg h1, if_pos h2] at hab
            exact absurd hab (by simp)
          · rw [if_neg h1, if_neg h2] at hab
            by_cases h3 : y < z
            · rw [if_pos (by omega)]
            · rw [if_neg h3] at hbc
              by_cases h4 : z < y
              · rw [if_pos h4] at hbc
                exact absurd hbc (by simp)
              · rw [if_neg h4] at hbc
                rw [if_neg (by omega), if_neg (by omega)]
                exact ih ys zs hab hbc

theorem strLtB_lt_of_lt_of_le (a b c : Str) (hab : strLtB a b = true)
    (hbc : strLtB c b = false) : strLtB a c = true := by
  cases hac : strLtB a c with
  | true => rfl
  | false =>
    cases hca : strLtB c a with
    | true => exact absurd (strLtB_trans c a b hca hab) (by rw [hbc]; simp)
    | false =>
      have : a = c := strLtB_connex a c hac hca
      subst this
      exact absurd hab (by rw [hbc]; simp)

theorem strLtB_lt_of_le_of_lt (a b c : Str) (hab : strLtB b a = false)
    (hbc : strLtB b c = true) : strLtB a c = true := by
  cases hac : strLtB a c with
  | true => rfl
  | false =>
    cases hca : strLtB c a with
    | true => exact absurd (strLtB_trans b c a hbc hca) (by rw [hab]; simp)
    | false =>
      have : a = c := strLtB_connex a c hac hca
      subst this
      exact absurd hbc (by rw [hab]; simp)

theorem strLtB_append_self (a u : Str) : strLtB (a ++ u) a = false := by
  induction a with
  | nil => cases u <;> rfl
  | cons x xs ih => simp [strLtB, ih]

theorem strLtB_self_append (a : Str) (c : Nat) (cs : Str) :
    strLtB a (a ++ c :: cs) = true := by
  induction a with
  | nil => rfl
  | cons x xs ih => simp [strLtB, ih]

theorem strLtB_append_left (x a b : Str) :
    strLtB (x ++ a) (x ++ b) = strLtB a b := by
  induction x with
  | nil => rfl
  | cons c cs ih => simp [strLtB, ih]

theorem strLtB_append_of_lt_not_prefix (a b u : Str) (hab : strLtB a b = true)
    (hnp : a.isPrefixOf b = false) : strLtB (a ++ u) b = true := by
  induction a generalizing b with
  | nil => simp [List.isPrefixOf] at hnp
  | cons x xs ih =>
    cases b with
    | nil => simp [strLtB] at hab
    | cons y ys =>
      simp only [strLtB] at hab ⊢
      simp only [List.isPrefixOf, Bool.and_eq_false_iff] at hnp
      by_cases h1 : x < y
      · rw [if_pos h1]
      · by_cases h2 : y < x
        · rw [if_neg h1, if_pos h2] at hab
          exact absurd hab (by simp)
        · rw [if_neg h1, if_neg h2] at hab
          rw [if_neg h1, if_neg h2]
          have hxy : x = y := by omega
          rcases hnp with hnp | hnp
          · exact absurd hnp (by simp [hxy])
          · exact ih ys hab hnp

theorem strLtB_of_proper_listPre (a b : Str) (hpre : a <+: b) (hne : a ≠ b) :
    strLtB a b = true := by
  obtain ⟨t, rfl⟩ := hpre
  cases t with
  | nil => exact absurd (by simp) hne
  | cons c cs => exact strLtB_self_append a c cs

theorem strLtB_le_of_listPre (a b : Str) (hpre : a <+: b) :
    strLtB b a = false := by
  obtain ⟨t, rfl⟩ := hpre
  exact strLtB_append_self a t

/-- Bytes other than a trailing `/`. -/
def noSlash (s : Str) : Bool := s.all (fun c => c != slashByte)

/-- `strings.HasSuffix(entry, slashSeparator)` for a one-byte
separator. -/
def endsWithSlash (e : Str) : Bool :=
  match e.getLast? with
  | some c => c == slashByte
  | none => false

/-- `strings.TrimSuffix(entry, slashSeparator)`. -/
def dropSlash (e : Str) : Str := if endsWithSlash e then e.dropLast else e

/-- A directory entry as produced by a disk listing: a nonempty
slash-free base name, optionally with one trailing `/` (directories). -/
def ValidEntry (e : Str) : Prop :=
  ∃ base : Str, noSlash base = true ∧ base ≠ [] ∧
    (e = base ∨ e = base ++ [slashByte])

theorem noSlash_not_mem (b : Str) (h : noSlash b = true) : slashByte ∉ b := by
  simp only [noSlash, List.all_eq_true] at h
  intro hm
  have := h _ hm
  simp at this

theorem endsWithSlash_concat_slash (b : Str) :
    endsWithSlash (b ++ [slashByte]) = true := by
  simp [endsWithSlash, List.getLast?_concat]

theorem endsWithSlash_of_noSlash (b : Str) (h : noSlash b = true) :
    endsWithSlash b = false := by
  cases hb : b.getLast? with
  | none => simp [endsWithSlash, hb]
  | some c =>
    have hc : c ∈ b := List.mem_of_getLast?_eq_some hb
    have := noSlash_not_mem b h
    simp only [endsWithSlash, hb, beq_eq_false_iff_ne, ne_eq]
    intro hcs
    exact this (hcs ▸ hc)

theorem endsWithSlash_eq_concat (e : Str) (h : endsWithSlash e = true) :
    e = e.dropLast ++ [slashByte] := by
  cases he : e.getLast? with
  | none => simp [endsWithSlash, he] at h
  | some c =>
    simp only [endsWithSlash, he, beq_iff_eq] at h
    subst h
    exact (List.dropLast_append_getLast? slashByte he).symm

theorem dropSlash_noSlash (b : Str) (h : noSlash b = true) : dropSlash b = b := by
  simp [dropSlash, endsWithSlash_of_noSlash b h]

/-- A slash-terminated string has no proper extension that is still a
valid single directory entry (the extension would put the `/` in the
interior). -/
theorem valid_no_proper_ext_of_slash_end (x e : Str) (x0 : Str)
    (hx : x = x0 ++ [slashByte]) (he : ValidEntry e)
    (hpre : x <+: e) (hne : x ≠ e) : False := by
  obtain ⟨b, hb, hbne, hcase⟩ := he
  have h47 : slashByte ∈ x := by rw [hx]; simp
  rcases hcase with rfl | rfl
  · exact noSlash_not_mem _ hb (hpre.subset h47)
  · have hlt : x.length < (b ++ [slashByte]).length := by
      rcases Nat.lt_or_ge x.length (b ++ [slashByte]).length with h | h
      · exact h
      · exact absurd (hpre.eq_of_length_le h) hne
    have hxb : x <+: b := by
      apply List.prefix_of_prefix_length_le hpre (List.prefix_append b [slashByte])
      simp only [List.length_append, List.length_cons, List.length_nil] at hlt
      omega
    exact noSlash_not_mem b hb (hxb.subset h47)

/-- The shape of the values published for one directory entry `e` under
path prefix `P`: the path itself (files, trimmed leaf directories,
non-recursive directories) or any extension of it (outputs of the
recursive walk into a directory). -/
def GroupOf (P e p : Str) : Prop :=
  p = P ++ e ∨ (endsWithSlash e = true ∧ ∃ u, p = P ++ (e ++ u))

theorem groupOf_shape (P e p : Str) (hp : GroupOf P e p) :
    ∃ s, p = P ++ s ∧ (s = e ∨ (endsWithSlash e = true ∧ ∃ u, s = e ++ u)) := by
  rcases hp with rfl | ⟨hds, u, rfl⟩
  · exact ⟨e, rfl, Or.inl rfl⟩
  · exact ⟨e ++ u, rfl, Or.inr ⟨hds, u, rfl⟩⟩

/-- Published values of a smaller entry precede every published value
of a larger entry of the same directory. -/
theorem group_lt (P e e' p q : Str) (he : ValidEntry e) (he' : ValidEntry e')
    (hlt : strLtB e e' = true) (hp : GroupOf P e p) (hq : GroupOf P e' q) :
    strLtB p q = true := by
  obtain ⟨s, rfl, hs⟩ := groupOf_shape P e p hp
  obtain ⟨t, rfl, ht⟩ := groupOf_shape P e' q hq
  rw [strLtB_append_left]
  have hne : e ≠ e' := by
    intro h
    rw [h, strLtB_irrefl] at hlt
    exact absurd hlt (by simp)
  by_cases hpre : e.isPrefixOf e' = true
  · have hpre' : e <+: e' := List.isPrefixOf_iff_prefix.mp hpre
    have hslash : endsWithSlash e = false := by
      cases hds : endsWithSlash e with
      | false => rfl
      | true =>
        exact absurd (valid_no_proper_ext_of_slash_end e e' e.dropLast
          (endsWithSlash_eq_concat e hds) he' hpre' hne) (by simp)
    have hse : s = e := by
      rcases hs with h | ⟨hds, -⟩
      · exact h
      · rw [hds] at hslash
        exact absurd hslash (by simp)
    subst hse
    rcases ht with h | ⟨-, u', h⟩
    · rw [h]
      exact strLtB_of_proper_listPre s e' hpre' hne
    · rw [h]
      refine strLtB_of_proper_listPre _ _ (hpre'.trans (List.prefix_append e' u')) ?_
      intro hcontra
      have h1 := hpre'.length_le
      have h2 : s.length = (e' ++ u').length := by rw [← hcontra]
      have h4 : s = e' := by
        apply hpre'.eq_of_length_le
        simp only [List.length_append] at h2
        omega
      exact hne h4
  · have hpreF : e.isPrefixOf e' = false := by
      simp only [Bool.not_eq_true] at hpre
      exact hpre
    have h1 : strLtB s e' = true := by
      rcases hs with h | ⟨-, u, h⟩
      · rw [h]
        exact hlt
      · rw [h]
        exact strLtB_append_of_lt_not_prefix e e' u hlt hpreF
    rcases ht with h | ⟨-, u', h⟩
    · rw [h]
      exact h1
    · rw [h]
      exact strLtB_lt_of_lt_of_le s e' (e' ++ u') h1 (strLtB_append_self e' u')

/-- Every published value of an entry strictly above the marker's
directory component is at least `markerDir ++ markerBase` (prefixed by
`P`). -/
theorem marker_le_group (mD mB e P p : Str)
    (hshape : mB ≠ [] → ∃ d0, noSlash d0 = true ∧ mD = d0 ++ [slashByte])
    (he : ValidEntry e)
    (hge : strLtB e mD = false) (hne : e ≠ mD)
    (hp : GroupOf P e p) :
    strLtB p (P ++ (mD ++ mB)) = false := by
  obtain ⟨s, rfl, hs⟩ := groupOf_shape P e p hp
  rw [strLtB_append_left]
  have hlt : strLtB mD e = true := by
    cases hmd : strLtB mD e with
    | true => rfl
    | false => exact absurd (strLtB_connex e mD hge hmd) hne
  have hsext : s = e ∨ ∃ u, s = e ++ u := by
    rcases hs with h | ⟨-, u, h⟩
    · exact Or.inl h
    · exact Or.inr ⟨u, h⟩
  by_cases hpre : mD.isPrefixOf e = true
  · have hpre' : mD <+: e := List.isPrefixOf_iff_prefix.mp hpre
    by_cases hmB : mB = []
    · subst hmB
      simp only [List.append_nil]
      have hpres : mD <+: s := by
        rcases hsext with h | ⟨u, h⟩
        · rw [h]
          exact hpre'
        · rw [h]
          exact hpre'.trans (List.prefix_append e u)
      exact strLtB_le_of_listPre mD s hpres
    · obtain ⟨d0, hd0, hmd0⟩ := hshape hmB
      exact absurd (valid_no_proper_ext_of_slash_end mD e d0 hmd0 he hpre'
        (fun h => hne h.symm)) (by simp)
  · have hpreF : mD.isPrefixOf e = false := by
      simp only [Bool.not_eq_true] at hpre
      exact hpre
    have h1 : strLtB (mD ++ mB) e = true :=
      strLtB_append_of_lt_not_prefix mD e mB hlt hpreF
    have h2 : strLtB (mD ++ mB) s = true := by
      rcases hsext with h | ⟨u, h⟩
      · rw [h]
        exact h1
      · rw [h]
        exact strLtB_lt_of_lt_of_le (mD ++ mB) e (e ++ u) h1
          (strLtB_append_self e u)
    exact strLtB_asymm _ _ h2

/-- `strings.SplitN(marker, "/", 2)`: the directory component (with its
trailing `/` when the marker contains one) and the remainder. -/
def splitMarker : Str → Str × Str
  | [] => ([], [])
  | c :: rest =>
    if c == slashByte then ([c], rest)
    else ((c :: (splitMarker rest).1), (splitMarker rest).2)

theorem splitMarker_append (m : Str) :
    (splitMarker m).1 ++ (splitMarker m).2 = m := by
  induction m with
  | nil => rfl
  | cons c rest ih =>
    simp only [splitMarker]
    split_ifs with hc
    · simp only [beq_iff_eq] at hc
      simp [hc]
    · simp [ih]

theorem splitMarker_shape (m : Str) :
    (splitMarker m).2 ≠ [] →
      ∃ d0, noSlash d0 = true ∧ (splitMarker m).1 = d0 ++ [slashByte] := by
  induction m with
  | nil => intro h; simp [splitMarker] at h
  | cons c rest ih =>
    intro h
    simp only [splitMarker] at h ⊢
    split_ifs at h ⊢ with hc
    · simp only [beq_iff_eq] at hc
      exact ⟨[], rfl, by simp [hc]⟩
    · obtain ⟨d0, hd0, hd0eq⟩ := ih h
      refine ⟨c :: d0, ?_, by simp [hd0eq]⟩
      simp only [noSlash, List.all_cons, Bool.and_eq_true]
      exact ⟨by simpa using hc, hd0⟩

/-- A directory tree as one disk serves it to the walker: each
directory holds named children; `none` marks a plain file entry and
`some t` a subdirectory with its own tree.  Directory child names carry
their trailing `/` exactly as `disk.ListDir` reports them. -/
inductive FsTree where
  | node : List (Str × Option FsTree) → FsTree

/-- Look up the subtree of a directory entry by its listed name. -/
def findDir : List (Str × Option FsTree) → Str → Option FsTree
  | [], _ => none
  | (n, some t) :: rest, nm => if n = nm then some t else findDir rest nm
  | (_, none) :: rest, nm => findDir rest nm

/-- Shape of one child as listed: files are nonempty slash-free names;
directories are a nonempty slash-free base followed by `/`. -/
def ChildShapeB (c : Str × Option FsTree) : Bool :=
  match c.2 with
  | none => (¬ c.1.isEmpty) && noSlash c.1
  | some _ =>
      endsWithSlash c.1 && noSlash c.1.dropLast && (¬ c.1.dropLast.isEmpty)

/-- Well-formed filesystem tree: every child is shaped as a file or
directory entry, base names are distinct within a directory (a real
filesystem cannot hold both file `x` and directory `x/`), and subtrees
are well-formed. -/
inductive FsWF : FsTree → Prop where
  | node : ∀ children,
      (∀ c ∈ children, ChildShapeB c = true) →
      (children.map (fun c => dropSlash c.1)).Nodup →
      (∀ c ∈ children, ∀ t, c.2 = some t → FsWF t) →
      FsWF (.node children)

/-- Modelled from the spec: `pathJoin` (its definition is not among the
supplied sources) joins a path prefix with a relative entry.  In the
walker the prefix is always `""` or slash-terminated and the entry is a
clean relative name, so the join is plain concatenation. -/
def pathJoin (s1 s2 : Str) : Str := s1 ++ s2

/-- The per-entry transformation of `xlObjects.listDir`: entries not
matching the prefix filter are replaced by `""`; directory entries that
are leaves (contain the metadata sentinel, as decided by the `isLeaf`
parameter) lose their trailing `/`. -/
def listDirMapEntry (isLeafB : Str → Bool) (prefixDir epm : Str) (entry : Str) :
    Str :=
  if ¬ (epm.isPrefixOf entry) then []
  else if endsWithSlash entry && isLeafB (pathJoin prefixDir entry) then
    entry.dropLast
  else entry

/-- `xlObjects.listDir` on one directory: list the child names, filter
and trim, sort (`sort.Strings`), and drop the leading empty strings. -/
def listDirEntries (children : List (Str × Option FsTree)) (isLeafB : Str → Bool)
    (prefixDir epm : Str) : List Str :=
  (((children.map (fun c => listDirMapEntry isLeafB prefixDir epm c.1)).mergeSort
    strLeB).dropWhile (fun e => e.isEmpty))

theorem findDir_mem (children : List (Str × Option FsTree)) (nm : Str)
    (t : FsTree) (h : findDir children nm = some t) : (nm, some t) ∈ children := by
  induction children with
  | nil => simp [findDir] at h
  | cons c rest ih =>
    match c with
    | (n, some t') =>
      simp only [findDir] at h
      split_ifs at h with hn
      · simp only [Option.some.injEq] at h
        subst h
        subst hn
        exact List.mem_cons_self _ _
      · exact List.mem_cons_of_mem _ (ih h)
    | (n, none) =>
      simp only [findDir] at h
      exact List.mem_cons_of_mem _ (ih h)

theorem sizeOf_lt_of_mem_children (children : List (Str × Option FsTree))
    (nm : Str) (t : FsTree) (h : (nm, some t) ∈ children) :
    sizeOf t < sizeOf (FsTree.node children) := by
  have h1 := List.sizeOf_lt_of_mem h
  simp only [FsTree.node.sizeOf_spec]
  have h2 : sizeOf (nm, some t) = 1 + sizeOf nm + (1 + sizeOf t) := by
    simp
  omega

mutual

/-- `xl.treeWalk` (tree-walk.go): walk one directory level.  The walk
of a directory lists, sorts, seeks past the marker's directory
component (`sort.Search` on the sorted entries), then processes the
remaining entries in order via `treeWalkEntries`.  `send` never times
out in this model: the published values are collected into the
returned list. -/
def treeWalk (t : FsTree) (isLeafB : Str → Bool)
    (prefixDir epm marker : Str) (recursive : Bool) : List Str :=
  match t with
  | .node children =>
    treeWalkEntries (FsTree.node children) isLeafB prefixDir
      (splitMarker marker).1 (splitMarker marker).2 recursive
      ((listDirEntries children isLeafB prefixDir epm).dropWhile
        (fun e => strLtB e (splitMarker marker).1))
      true
termination_by (sizeOf t, 1, 0)
decreasing_by
  simp_wf
  apply Prod.Lex.right
  apply Prod.Lex.left
  omega

/-- The entry loop of `xl.treeWalk`: the first entry equal to
`markerDir` is skipped unless it must be recursed into; directory
entries are recursed into in recursive mode (with the marker's
remainder exactly when the entry is the marker directory); every other
entry is published as `pathJoin(prefixDir, entry)`. -/
def treeWalkEntries (t : FsTree) (isLeafB : Str → Bool)
    (prefixDir markerDir markerBase : Str) (recursive : Bool)
    (entries : List Str) (first : Bool) : List Str :=
  match t, entries with
  | _, [] => []
  | .node children, entry :: rest =>
    if first ∧ entry = markerDir ∧ (¬ recursive ∨ ¬ endsWithSlash entry) then
      treeWalkEntries (FsTree.node children) isLeafB prefixDir markerDir
        markerBase recursive rest false
    else if recursive ∧ endsWithSlash entry then
      (match hfd : findDir children entry with
       | some sub =>
          treeWalk sub isLeafB (pathJoin prefixDir entry) []
            (if entry = markerDir then markerBase else []) recursive
       | none => [])
      ++ treeWalkEntries (FsTree.node children) isLeafB prefixDir markerDir
          markerBase recursive rest false
    else
      pathJoin prefixDir entry
        :: treeWalkEntries (FsTree.node children) isLeafB prefixDir markerDir
            markerBase recursive rest false
termination_by (sizeOf t, 0, entries.length)
decreasing_by
  · simp_wf
    apply Prod.Lex.right
    apply Prod.Lex.right
    omega
  · simp_wf
    apply Prod.Lex.left
    simpa using sizeOf_lt_of_mem_children children entry sub (findDir_mem _ _ _ hfd)
  · simp_wf
    apply Prod.Lex.right
    apply Prod.Lex.right
    omega
  · simp_wf
    apply Prod.Lex.right
    apply Prod.Lex.right
    omega

end

theorem strLeB_iff (a b : Str) : strLeB a b = true ↔ strLtB b a = false := by
  simp [strLeB]

theorem strLeB_of_lt (a b : Str) (h : strLtB a b = true) : strLeB a b = true := by
  rw [strLeB_iff]
  exact strLtB_asymm a b h

theorem strLtB_of_le_ne (a b : Str) (h : strLtB b a = false) (hne : a ≠ b) :
    strLtB a b = true := by
  cases hab : strLtB a b with
  | false => exact absurd (strLtB_connex a b hab h) hne
  | true => rfl

theorem strLeB_trans (a b c : Str) (hab : strLeB a b = true)
    (hbc : strLeB b c = true) : strLeB a c = true := by
  rw [strLeB_iff] at hab hbc ⊢
  cases hca : strLtB c a with
  | false => rfl
  | true => exact absurd (strLtB_lt_of_lt_of_le c a b hca hab) (by rw [hbc]; simp)

theorem strLeB_total (a b : Str) : (strLeB a b || strLeB b a) = true := by
  rw [Bool.or_eq_true, strLeB_iff, strLeB_iff]
  cases h : strLtB b a with
  | false => exact Or.inl rfl
  | true => exact Or.inr (strLtB_asymm b a h)

/-- A `≤`-sorted duplicate-free list is `<`-sorted. -/
theorem pairwise_lt_of_le_nodup (l : List Str)
    (hle : l.Pairwise (fun a b => strLeB a b = true)) (hnd : l.Nodup) :
    l.Pairwise (fun a b => strLtB a b = true) := by
  refine (hle.and hnd).imp ?_
  rintro a b ⟨h1, h2⟩
  rw [strLeB_iff] at h1
  exact strLtB_of_le_ne a b h1 h2

/-- After dropping the leading empty strings of a sorted list, no empty
string remains (the empty string is the least string). -/
theorem dropWhile_sorted_ne_nil (l : List Str)
    (hle : l.Pairwise (fun a b => strLeB a b = true)) :
    ∀ e ∈ l.dropWhile (fun x => x.isEmpty), e ≠ [] := by
  induction l with
  | nil => intro e he; simp [List.dropWhile] at he
  | cons a l' ih =>
    intro e he
    rw [List.dropWhile] at he
    cases ha : (a : Str).isEmpty with
    | true =>
      rw [ha] at he
      exact ih hle.of_cons e he
    | false =>
      rw [ha] at he
      simp only [List.mem_cons] at he
      have hane : a ≠ [] := by simpa [List.isEmpty_iff] using ha
      rcases he with rfl | he
      · exact hane
      · intro hnil
        subst hnil
        have h1 := List.rel_of_pairwise_cons hle he
        rw [strLeB_iff] at h1
        obtain ⟨c, cs, rfl⟩ := List.exists_cons_of_ne_nil hane
        simp [strLtB] at h1

/-- `entries[idx:]` after `sort.Search` for the first entry `≥ markerDir`
on a sorted list: every remaining entry is `≥ markerDir`. -/
theorem dropWhile_sorted_ge (l : List Str) (m : Str)
    (hle : l.Pairwise (fun a b => strLeB a b = true)) :
    ∀ e ∈ l.dropWhile (fun x => strLtB x m), strLtB e m = false := by
  induction l with
  | nil => intro e he; simp [List.dropWhile] at he
  | cons a l' ih =>
    intro e he
    rw [List.dropWhile] at he
    cases ha : strLtB a m with
    | true =>
      rw [ha] at he
      exact ih hle.of_cons e he
    | false =>
      rw [ha] at he
      simp only [List.mem_cons] at he
      rcases he with rfl | he
      · exact ha
      · have h1 := List.rel_of_pairwise_cons hle he
        rw [strLeB_iff] at h1
        cases hem : strLtB e m with
        | false => rfl
        | true => exact absurd (strLtB_lt_of_lt_of_le e m a hem ha) (by rw [h1]; simp)

/-- One entry of `xlObjects.listDir` after filtering and leaf trimming:
either it has been blanked out by the filter, or it is a valid entry
whose base name is the child's base name. -/
theorem listDirMapEntry_shape (isLeafB : Str → Bool) (P epm : Str)
    (c : Str × Option FsTree) (hc : ChildShapeB c = true) :
    listDirMapEntry isLeafB P epm c.1 = [] ∨
      (ValidEntry (listDirMapEntry isLeafB P epm c.1) ∧
        dropSlash (listDirMapEntry isLeafB P epm c.1) = dropSlash c.1) := by
  by_cases hflt : epm.isPrefixOf c.1 = true
  · right
    unfold ChildShapeB at hc
    by_cases htrim : (endsWithSlash c.1 && isLeafB (pathJoin P c.1)) = true
    · have he : listDirMapEntry isLeafB P epm c.1 = c.1.dropLast := by
        simp [listDirMapEntry, hflt, htrim]
      rw [he]
      have hsl : endsWithSlash c.1 = true := by
        simp only [Bool.and_eq_true] at htrim
        exact htrim.1
      cases h2 : c.2 with
      | none =>
        rw [h2] at hc
        simp only [Bool.and_eq_true, decide_eq_true_eq] at hc
        rw [endsWithSlash_of_noSlash c.1 hc.2] at hsl
        exact absurd hsl (by simp)
      | some t =>
        rw [h2] at hc
        simp only [Bool.and_eq_true, decide_eq_true_eq] at hc
        obtain ⟨⟨-, hns⟩, hne⟩ := hc
        constructor
        · exact ⟨c.1.dropLast, hns, by simpa [List.isEmpty_iff] using hne, Or.inl rfl⟩
        · rw [dropSlash_noSlash _ hns]
          simp [dropSlash, hsl]
    · have he : listDirMapEntry isLeafB P epm c.1 = c.1 := by
        simp only [listDirMapEntry, hflt, not_true, if_false]
        rw [if_neg htrim]
      rw [he]
      refine ⟨?_, rfl⟩
      cases h2 : c.2 with
      | none =>
        rw [h2] at hc
        simp only [Bool.and_eq_true, decide_eq_true_eq] at hc
        exact ⟨c.1, hc.2, by simpa [List.isEmpty_iff] using hc.1, Or.inl rfl⟩
      | some t =>
        rw [h2] at hc
        simp only [Bool.and_eq_true, decide_eq_true_eq] at hc
        obtain ⟨⟨hsl, hns⟩, hne⟩ := hc
        exact ⟨c.1.dropLast, hns, by simpa [List.isEmpty_iff] using hne,
          Or.inr (endsWithSlash_eq_concat c.1 hsl)⟩
  · left
    simp [listDirMapEntry, hflt]

/-- `List.count` over byte strings does not depend on which lawful
equality test is used. -/
theorem count_decEq_eq (v : Str) (l : List Str) :
    @List.count Str instBEqOfDecidableEq v l = List.count v l := by
  induction l with
  | nil => rfl
  | cons a l ih =>
    rw [@List.count_cons Str instBEqOfDecidableEq, List.count_cons, ih]
    by_cases h : a = v
    · simp [h]
    · simp [h]

/-- Distinct children of a real directory (distinct base names) map to
distinct nonempty listing entries: each nonempty value occurs at most
once among the mapped entries. -/
theorem mapList_count_le_one (children : List (Str × Option FsTree))
    (isLeafB : Str → Bool) (P epm : Str)
    (hcs : ∀ c ∈ children, ChildShapeB c = true)
    (hnd : (children.map (fun c => dropSlash c.1)).Nodup)
    (v : Str) (hv : v ≠ []) :
    (children.map (fun c => listDirMapEntry isLeafB P epm c.1)).count v ≤ 1 := by
  induction children with
  | nil => simp
  | cons c rest ih =>
    have hcs' : ∀ c' ∈ rest, ChildShapeB c' = true := fun c' h => hcs c' (by simp [h])
    simp only [List.map_cons, List.nodup_cons] at hnd
    simp only [List.map_cons, List.count_cons]
    by_cases hfc : v = listDirMapEntry isLeafB P epm c.1
    · have hzero : (rest.map (fun c => listDirMapEntry isLeafB P epm c.1)).count v
          = 0 := by
        rw [List.count_eq_zero]
        intro hmem
        obtain ⟨c', hc', hfc'⟩ := List.mem_map.mp hmem
        rcases listDirMapEntry_shape isLeafB P epm c (hcs c (by simp)) with h | ⟨-, hd⟩
        · exact hv (hfc.trans h)
        · rcases listDirMapEntry_shape isLeafB P epm c' (hcs' c' hc') with h' | ⟨-, hd'⟩
          · exact hv (hfc'.symm.trans h')
          · have hds : dropSlash c.1 = dropSlash c'.1 := by
              rw [← hd, ← hd', ← hfc, hfc']
            exact hnd.1 (hds ▸ List.mem_map.mpr ⟨c', hc', rfl⟩)
      rw [hzero]
      simp [← hfc]
    · have hb : (listDirMapEntry isLeafB P epm c.1 == v) = false := by
        rw [beq_eq_false_iff_ne]
        exact fun h => hfc h.symm
      rw [hb]
      simpa using ih hcs' hnd.2

/-- The entry list `xlObjects.listDir` hands to the tree walk: every
entry is a valid file or directory name, and the entries are strictly
ascending (sorted and duplicate-free). -/
theorem listDirEntries_facts (children : List (Str × Option FsTree))
    (isLeafB : Str → Bool) (P epm : Str)
    (hcs : ∀ c ∈ children, ChildShapeB c = true)
    (hnd : (children.map (fun c => dropSlash c.1)).Nodup) :
    (∀ e ∈ listDirEntries children isLeafB P epm, ValidEntry e) ∧
    (listDirEntries children isLeafB P epm).Pairwise
      (fun a b => strLtB a b = true) := by
  have hperm := List.mergeSort_perm
    (children.map (fun c => listDirMapEntry isLeafB P epm c.1)) strLeB
  have hsorted : List.Pairwise (fun a b => strLeB a b = true)
      ((children.map (fun c => listDirMapEntry isLeafB P epm c.1)).mergeSort
        strLeB) := List.sorted_mergeSort strLeB_trans strLeB_total _
  have hsub : (listDirEntries children isLeafB P epm).Sublist
      ((children.map (fun c => listDirMapEntry isLeafB P epm c.1)).mergeSort
        strLeB) := by
    unfold listDirEntries
    exact List.dropWhile_sublist _
  have hne : ∀ e ∈ listDirEntries children isLeafB P epm, e ≠ [] := by
    intro e he
    exact dropWhile_sorted_ne_nil _ hsorted e he
  have hsortedL : (listDirEntries children isLeafB P epm).Pairwise
      (fun a b => strLeB a b = true) := hsorted.sublist hsub
  constructor
  · intro e he
    have hmem : e ∈ (children.map
        (fun c => listDirMapEntry isLeafB P epm c.1)).mergeSort strLeB :=
      hsub.subset he
    rw [List.mem_mergeSort] at hmem
    obtain ⟨c, hc, hfc⟩ := List.mem_map.mp hmem
    rcases listDirMapEntry_shape isLeafB P epm c (hcs c hc) with h | ⟨hvd, -⟩
    · exact absurd (hfc ▸ h) (hne e he)
    · exact hfc ▸ hvd
  · apply pairwise_lt_of_le_nodup _ hsortedL
    rw [List.nodup_iff_sublist]
    intro v hdup
    have hvmem : v ∈ listDirEntries children isLeafB P epm := hdup.subset (by simp)
    have hv : v ≠ [] := hne v hvmem
    have hsp : List.Subperm [v, v]
        (children.map (fun c => listDirMapEntry isLeafB P epm c.1)) :=
      ((hdup.trans hsub).subperm).trans hperm.subperm
    have hcnt := hsp.count_le v
    rw [count_decEq_eq, count_decEq_eq] at hcnt
    simp [List.count_cons] at hcnt
    have h1 := mapList_count_le_one children isLeafB P epm hcs hnd v hv
    omega

theorem treeWalk_eq (children : List (Str × Option FsTree))
    (isLeafB : Str → Bool) (P epm marker : Str) (recursive : Bool) :
    treeWalk (FsTree.node children) isLeafB P epm marker recursive =
      treeWalkEntries (FsTree.node children) isLeafB P
        (splitMarker marker).1 (splitMarker marker).2 recursive
        ((listDirEntries children isLeafB P epm).dropWhile
          (fun e => strLtB e (splitMarker marker).1))
        true := by
  rw [treeWalk]

theorem treeWalkEntries_nil_eq (t : FsTree) (isLeafB : Str → Bool)
    (P mD mB : Str) (recursive : Bool) (first : Bool) :
    treeWalkEntries t isLeafB P mD mB recursive [] first = [] := by
  rw [treeWalkEntries]

theorem treeWalkEntries_cons_eq (children : List (Str × Option FsTree))
    (isLeafB : Str → Bool) (P mD mB : Str) (recursive : Bool)
    (entry : Str) (rest : List Str) (first : Bool) :
    treeWalkEntries (FsTree.node children) isLeafB P mD mB recursive
        (entry :: rest) first =
      if first ∧ entry = mD ∧ (¬ recursive ∨ ¬ endsWithSlash entry) then
        treeWalkEntries (FsTree.node children) isLeafB P mD mB recursive rest false
      else if recursive ∧ endsWithSlash entry then
        (match findDir children entry with
         | some sub => treeWalk sub isLeafB (pathJoin P entry) []
             (if entry = mD then mB else []) recursive
         | none => []) ++
        treeWalkEntries (FsTree.node children) isLeafB P mD mB recursive rest false
      else
        pathJoin P entry
          :: treeWalkEntries (FsTree.node children) isLeafB P mD mB recursive
              rest false := by
  rw [treeWalkEntries]
  by_cases h1 : first = true ∧ entry = mD ∧
      (¬ recursive = true ∨ ¬ endsWithSlash entry = true)
  · rw [if_pos h1, if_pos h1]
  · rw [if_neg h1, if_neg h1]
    by_cases h2 : recursive = true ∧ endsWithSlash entry = true
    · rw [if_pos h2, if_pos h2]
      congr 1
      cases hfd : findDir children entry <;> rfl
    · rw [if_neg h2, if_neg h2]

/-- The entry loop of `xl.treeWalk` over one directory's post-seek
entries: the published paths are strictly ascending, each belongs to the
group of one listed entry, and (given the marker shape produced by
`strings.SplitN`) each is at least `prefixDir ++ markerDir ++ markerBase`. -/
theorem treeWalkEntries_spec (children : List (Str × Option FsTree))
    (isLeafB : Str → Bool) (P mD mB : Str) (recursive : Bool)
    (hshape : mB ≠ [] → ∃ d0, noSlash d0 = true ∧ mD = d0 ++ [slashByte])
    (hsub : ∀ nm sub, (nm, some sub) ∈ children → ∀ P' epm' marker',
      ((treeWalk sub isLeafB P' epm' marker' recursive).Pairwise
          (fun a b => strLtB a b = true)) ∧
      (∀ p ∈ treeWalk sub isLeafB P' epm' marker' recursive, ∃ u, p = P' ++ u) ∧
      (∀ p ∈ treeWalk sub isLeafB P' epm' marker' recursive,
          strLtB p (P' ++ marker') = false)) :
    ∀ (entries : List Str) (first : Bool),
      (∀ e ∈ entries, ValidEntry e) →
      entries.Pairwise (fun a b => strLtB a b = true) →
      (∀ e ∈ entries, strLtB e mD = false) →
      (first = true ∨ ∀ e ∈ entries, strLtB mD e = true) →
      ((treeWalkEntries (FsTree.node children) isLeafB P mD mB recursive entries
          first).Pairwise (fun a b => strLtB a b = true)) ∧
      (∀ p ∈ treeWalkEntries (FsTree.node children) isLeafB P mD mB recursive
          entries first, ∃ e ∈ entries, GroupOf P e p) ∧
      (∀ p ∈ treeWalkEntries (FsTree.node children) isLeafB P mD mB recursive
          entries first, strLtB p (P ++ (mD ++ mB)) = false) := by
  intro entries
  induction entries with
  | nil =>
    intro first _ _ _ _
    rw [treeWalkEntries_nil_eq]
    exact ⟨List.Pairwise.nil, fun p hp => absurd hp (by simp),
      fun p hp => absurd hp (by simp)⟩
  | cons entry rest ih =>
    intro first hval hsorted hge hfirst
    have hvE : ValidEntry entry := hval entry (List.mem_cons_self _ _)
    have hvR : ∀ e ∈ rest, ValidEntry e :=
      fun e he => hval e (List.mem_cons_of_mem _ he)
    have hsR := hsorted.of_cons
    have hheadlt : ∀ e ∈ rest, strLtB entry e = true :=
      fun e he => List.rel_of_pairwise_cons hsorted he
    have hgeE : strLtB entry mD = false := hge entry (List.mem_cons_self _ _)
    have hgeR : ∀ e ∈ rest, strLtB e mD = false :=
      fun e he => hge e (List.mem_cons_of_mem _ he)
    have hfR : ∀ e ∈ rest, strLtB mD e = true :=
      fun e he => strLtB_lt_of_le_of_lt mD entry e hgeE (hheadlt e he)
    obtain ⟨IH1, IH2, IH3⟩ := ih false hvR hsR hgeR (Or.inr hfR)
    rw [treeWalkEntries_cons_eq]
    by_cases h1 : first = true ∧ entry = mD ∧
        (¬ recursive = true ∨ ¬ endsWithSlash entry = true)
    · rw [if_pos h1]
      refine ⟨IH1, ?_, IH3⟩
      intro p hp
      obtain ⟨e, he, hg⟩ := IH2 p hp
      exact ⟨e, List.mem_cons_of_mem _ he, hg⟩
    · rw [if_neg h1]
      by_cases h2 : recursive = true ∧ endsWithSlash entry = true
      · rw [if_pos h2]
        cases hfd : findDir children entry with
        | none =>
          refine ⟨IH1, ?_, ?_⟩
          · intro p hp
            obtain ⟨e, he, hg⟩ := IH2 p hp
            exact ⟨e, List.mem_cons_of_mem _ he, hg⟩
          · intro p hp
            exact IH3 p hp
        | some sub =>
          have hmem := findDir_mem children entry sub hfd
          obtain ⟨hS1, hS2, hS3⟩ := hsub entry sub hmem (P ++ entry) []
            (if entry = mD then mB else [])
          have hgroup : ∀ p ∈ treeWalk sub isLeafB (pathJoin P entry) []
              (if entry = mD then mB else []) recursive, GroupOf P entry p := by
            intro p hp
            obtain ⟨u, hu⟩ := hS2 p hp
            exact Or.inr ⟨h2.2, u, hu.trans (List.append_assoc P entry u)⟩
          refine ⟨?_, ?_, ?_⟩
          · rw [List.pairwise_append]
            refine ⟨hS1, IH1, ?_⟩
            intro a ha b hb
            obtain ⟨e', he', hg'⟩ := IH2 b hb
            exact group_lt P entry e' a b hvE (hvR e' he') (hheadlt e' he')
              (hgroup a ha) hg'
          · intro p hp
            rcases List.mem_append.mp hp with hp | hp
            · exact ⟨entry, List.mem_cons_self _ _, hgroup p hp⟩
            · obtain ⟨e, he, hg⟩ := IH2 p hp
              exact ⟨e, List.mem_cons_of_mem _ he, hg⟩
          · intro p hp
            rcases List.mem_append.mp hp with hp | hp
            · by_cases hem : entry = mD
              · have h3 := hS3 p hp
                rw [if_pos hem, hem] at h3
                rw [← List.append_assoc]
                exact h3
              · exact marker_le_group mD mB entry P p hshape hvE hgeE hem
                  (hgroup p hp)
            · exact IH3 p hp
      · rw [if_neg h2]
        have hgroupHead : GroupOf P entry (pathJoin P entry) := Or.inl rfl
        refine ⟨?_, ?_, ?_⟩
        · rw [List.pairwise_cons]
          refine ⟨?_, IH1⟩
          intro b hb
          obtain ⟨e', he', hg'⟩ := IH2 b hb
          exact group_lt P entry e' (pathJoin P entry) b hvE (hvR e' he')
            (hheadlt e' he') hgroupHead hg'
        · intro p hp
          rcases List.mem_cons.mp hp with rfl | hp
          · exact ⟨entry, List.mem_cons_self _ _, hgroupHead⟩
          · obtain ⟨e, he, hg⟩ := IH2 p hp
            exact ⟨e, List.mem_cons_of_mem _ he, hg⟩
        · intro p hp
          rcases List.mem_cons.mp hp with rfl | hp
          · by_cases hem : entry = mD
            · exfalso
              cases hf : first with
              | true =>
                rw [hf] at h1
                exact h1 ⟨rfl, hem, not_and_or.mp h2⟩
              | false =>
                rw [hf] at hfirst
                rcases hfirst with hfT | hfAll
                · simp at hfT
                · have hmm := hfAll entry (List.mem_cons_self _ _)
                  rw [hem, strLtB_irrefl] at hmm
                  exact absurd hmm (by simp)
            · exact marker_le_group mD mB entry P (pathJoin P entry) hshape hvE
                hgeE hem hgroupHead
          · exact IH3 p hp

/-- `xl.treeWalk` on a well-formed directory tree: the published paths
are strictly ascending, each extends the path prefix, and each is at
least `prefixDir ++ marker`. -/
theorem treeWalk_spec (n : Nat) : ∀ (t : FsTree), sizeOf t ≤ n → FsWF t →
    ∀ (isLeafB : Str → Bool) (P epm marker : Str) (recursive : Bool),
      ((treeWalk t isLeafB P epm marker recursive).Pairwise
          (fun a b => strLtB a b = true)) ∧
      (∀ p ∈ treeWalk t isLeafB P epm marker recursive, ∃ u, p = P ++ u) ∧
      (∀ p ∈ treeWalk t isLeafB P epm marker recursive,
          strLtB p (P ++ marker) = false) := by
  induction n with
  | zero =>
    intro t hn
    obtain ⟨children⟩ := t
    simp [FsTree.node.sizeOf_spec] at hn
  | succ m ihn =>
    intro t hn hwf isLeafB P epm marker recursive
    obtain ⟨children⟩ := t
    obtain ⟨children2, hcs, hnd, hsubwf⟩ := hwf
    rw [treeWalk_eq]
    obtain ⟨hvalL, hstrictL⟩ := listDirEntries_facts children isLeafB P epm hcs hnd
    have hleL : (listDirEntries children isLeafB P epm).Pairwise
        (fun a b => strLeB a b = true) := hstrictL.imp
      (fun hab => strLeB_of_lt _ _ hab)
    have hsubspec : ∀ nm sub, (nm, some sub) ∈ children →
        ∀ P' epm' marker',
        ((treeWalk sub isLeafB P' epm' marker' recursive).Pairwise
            (fun a b => strLtB a b = true)) ∧
        (∀ p ∈ treeWalk sub isLeafB P' epm' marker' recursive, ∃ u, p = P' ++ u) ∧
        (∀ p ∈ treeWalk sub isLeafB P' epm' marker' recursive,
            strLtB p (P' ++ marker') = false) := by
      intro nm sub hmem P' epm' marker'
      have hsz : sizeOf sub ≤ m := by
        have := sizeOf_lt_of_mem_children children nm sub hmem
        simp only [FsTree.node.sizeOf_spec] at this hn
        omega
      exact ihn sub hsz (hsubwf (nm, some sub) hmem sub rfl) isLeafB P' epm'
        marker' recursive
    have hmain := treeWalkEntries_spec children isLeafB P
      (splitMarker marker).1 (splitMarker marker).2 recursive
      (splitMarker_shape marker) hsubspec
      ((listDirEntries children isLeafB P epm).dropWhile
        (fun e => strLtB e (splitMarker marker).1))
      true
      (fun e he => hvalL e ((List.dropWhile_sublist _).subset he))
      (hstrictL.sublist (List.dropWhile_sublist _))
      (fun e he => dropWhile_sorted_ge _ _ hleL e he)
      (Or.inl rfl)
    obtain ⟨h1, h2, h3⟩ := hmain
    rw [splitMarker_append] at h3
    refine ⟨h1, ?_, h3⟩
    intro p hp
    obtain ⟨e, -, hg⟩ := h2 p hp
    obtain ⟨s, hs, -⟩ := groupOf_shape P e p hg
    exact ⟨s, hs⟩

/-- C6: for every listing driven through `treeWalk` over a well-formed
directory tree with marker `m`, the published entries appear in
strictly ascending bytewise-lexicographic order, and every published
entry is at least `prefixDir ++ m`: each directory's entries are
sorted (and deduplicated by the real filesystem) before emission, the
seek skips all entries below the marker's directory component, and the
entry equal to the marker itself is skipped when it cannot contain
further results. -/
theorem treeWalk_ordered_spec (t : FsTree) (hwf : FsWF t)
    (isLeafB : Str → Bool) (prefixDir epm marker : Str) (recursive : Bool) :
    ((treeWalk t isLeafB prefixDir epm marker recursive).Pairwise
        (fun a b => strLtB a b = true)) ∧
    (∀ p ∈ treeWalk t isLeafB prefixDir epm marker recursive,
        strLeB (prefixDir ++ marker) p = true) := by
  obtain ⟨h1, -, h3⟩ := treeWalk_spec (sizeOf t) t le_rfl hwf isLeafB prefixDir
    epm marker recursive
  refine ⟨h1, ?_⟩
  intro p hp
  rw [strLeB_iff]
  exact h3 p hp

/-- C6 (witness): the tree holding directory `a/` (with file `x`) and
file `b`, walked recursively with marker `a/x`: the walk is strictly
ascending and every output is at least `a/x`. -/
theorem treeWalk_ordered_spec_witness :
    FsWF (FsTree.node [([97, 47], some (FsTree.node [([120], none)])),
      ([98], none)]) ∧
    (((treeWalk (FsTree.node [([97, 47], some (FsTree.node [([120], none)])),
          ([98], none)]) (fun _ => false) [] [] [97, 47, 120] true).Pairwise
        (fun a b => strLtB a b = true)) ∧
      ∀ p ∈ treeWalk (FsTree.node [([97, 47], some (FsTree.node [([120], none)])),
          ([98], none)]) (fun _ => false) [] [] [97, 47, 120] true,
        strLeB ([] ++ [97, 47, 120]) p = true) := by
  have hwfInner : FsWF (FsTree.node [([120], none)]) := by
    refine FsWF.node _ (by decide) (by decide) ?_
    intro c hc t ht
    rcases List.mem_cons.mp hc with rfl | hc2
    · exact Option.noConfusion ht
    · cases hc2
  have hwf : FsWF (FsTree.node [([97, 47], some (FsTree.node [([120], none)])),
      ([98], none)]) := by
    refine FsWF.node _ (by decide) (by decide) ?_
    intro c hc t ht
    rcases List.mem_cons.mp hc with rfl | hc2
    · cases ht
      exact hwfInner
    · rcases List.mem_cons.mp hc2 with rfl | hc3
      · exact Option.noConfusion ht
      · cases hc3
  exact ⟨hwf, treeWalk_ordered_spec _ hwf (fun _ => false) [] [] [97, 47, 120] true⟩
